import Mathlib

/-!
# Verification of the Monte Carlo portfolio-optimization engine

Shallow embedding, over exact rationals, of the scoring, allocation and
share-quantization functions of the repository (`helper.py`, `greedy.py`,
`dp_knapsack.py`, `equal_weight.py`, `greedy_whole.py`, `equal_whole.py`,
`algorithms/greedy.py`, `algorithms/dp_knapsack.py`,
`monte_carlo_method.py`), together with theorems settling the
specification claims.

Python dictionaries are embedded as association lists in insertion order;
`dictSet` mirrors `d[k] = v` (update in place, append when absent) and
`dlookup` mirrors `d.get(k)`.  Floating-point arithmetic is embedded as
exact rational arithmetic.  A portfolio Sharpe ratio, which in the source
is `(ret - rfr) / sqrt(var)`, is carried as the pair `(ret - rfr, var)`
(`PSharpe`) with an exact decidable comparison, plus a real-valued
denotation `PSharpe.toReal` used in claim statements.
-/

namespace Portfolio

attribute [local semireducible] Rat.add Rat.sub Rat.mul Rat.inv

/-- Dict write `d[k] = v`: replaces the value in place if the key is
present (keeping its position, as Python dicts do), appends otherwise. -/
def dictSet {κ α : Type} [DecidableEq κ] (k : κ) (v : α) : List (κ × α) → List (κ × α)
  | [] => [(k, v)]
  | (k', v') :: t => if k' = k then (k', v) :: t else (k', v') :: dictSet k v t

/-- Dict read `d.get(k)`: value of the first matching key. -/
def dlookup {κ α : Type} [DecidableEq κ] (k : κ) : List (κ × α) → Option α
  | [] => none
  | (k', v) :: t => if k' = k then some v else dlookup k t

/-- Sum of the values of a rational-valued dict (`sum(d.values())`). -/
def sumVals {κ : Type} (l : List (κ × ℚ)) : ℚ :=
  (l.map (·.2)).sum

/-- Keys of a dict, in insertion order (`list(d.keys())`). -/
def dkeys {κ α : Type} (l : List (κ × α)) : List κ :=
  l.map (·.1)

/-- `RFR` from `constants.py` (0.0554). -/
def RFR : ℚ := 554 / 10000

/-- `MAX_ALLOCATION_PER_STOCK` from `greedy.py` and `dp_knapsack.py` (0.20). -/
def MAX_ALLOCATION_PER_STOCK : ℚ := 20 / 100

/-- `MIN_ALLOCATION_PER_STOCK` from `greedy.py` and `dp_knapsack.py` (0.005). -/
def MIN_ALLOCATION_PER_STOCK : ℚ := 5 / 1000

/-- `DISCRETIZATION_STEPS` from `dp_knapsack.py`. -/
def DISCRETIZATION_STEPS : ℕ := 100

/-- `calculate_sharpe_ratio` from `helper.py`:
`(mean_return - risk_free_rate) / std_return if std_return > 0 else 0`.
The source's default `risk_free_rate=RFR` is passed explicitly at the
(defaulted) call sites. -/
def calculate_sharpe_ratio (mean_return std_return risk_free_rate : ℚ) : ℚ :=
  if 0 < std_return then (mean_return - risk_free_rate) / std_return else 0

/-- Per-instrument input statistics (`stocks_metrics[stock]` as produced by
`monte_carlo_method`). -/
structure StockMetrics where
  mean_annual_return : ℚ
  std_annual_return : ℚ
  percentile_5 : ℚ
  percentile_95 : ℚ
deriving DecidableEq

/-- Per-instrument scored record (`sharpe_ratios[stock]` in the
allocators).  The `src/` variants additionally carry the two percentile
fields verbatim from the input for display; no claim and no allocation
computation reads them, so they are not duplicated here. -/
structure ScoredStock where
  sharpe_ratio : ℚ
  mean_return : ℚ
  std_return : ℚ
deriving DecidableEq

/-- The `sharpe_ratios` dict built at the top of every allocator:
score each stock with `calculate_sharpe_ratio(mean, std)`. -/
def scoreStocks (sm : List (String × StockMetrics)) : List (String × ScoredStock) :=
  sm.map (fun p =>
    (p.1, ⟨calculate_sharpe_ratio p.2.mean_annual_return p.2.std_annual_return RFR,
           p.2.mean_annual_return, p.2.std_annual_return⟩))

/-- Insert `x` into a descending-by-`key` sorted list, before the first
element whose key is `≤ key x` (so that, among equal keys, elements keep
their original relative order). -/
def insertDescBy {α : Type} (key : α → ℚ) (x : α) : List α → List α
  | [] => [x]
  | y :: t => if key y ≤ key x then x :: y :: t else y :: insertDescBy key x t

/-- Stable descending sort by `key`: the embedding of Python's
`sorted(..., key=key, reverse=True)` (a stable sort; `reverse=True`
keeps the original relative order of equal keys). -/
def sortByKeyDesc {α : Type} (key : α → ℚ) (l : List α) : List α :=
  l.foldr (insertDescBy key) []

/-- `sorted(sharpe_ratios.items(), key=lambda x: x[1]['sharpe_ratio'],
reverse=True)`: stable descending sort by Sharpe ratio. -/
def sortBySharpeDesc (l : List (String × ScoredStock)) : List (String × ScoredStock) :=
  sortByKeyDesc (fun p => p.2.sharpe_ratio) l

/-- `sorted_stocks[:target_num_stocks]`: the top-K scored stocks. -/
def selectTop (sm : List (String × StockMetrics)) (target_num_stocks : ℕ) :
    List (String × ScoredStock) :=
  (sortBySharpeDesc (scoreStocks sm)).take target_num_stocks

/-- `total_sharpe` in `greedy.py`: sum of the strictly positive Sharpe
ratios among the selected stocks. -/
def greedyTotalSharpe (sel : List (String × ScoredStock)) : ℚ :=
  ((sel.filter (fun p => decide (0 < p.2.sharpe_ratio))).map (fun p => p.2.sharpe_ratio)).sum

/-- The pre-clamp proportional weights of `greedy.py`
(`raw_weight = metrics["sharpe_ratio"] / total_sharpe` for each selected
stock with strictly positive Sharpe ratio, in selection order). -/
def greedyPreClamp (sel : List (String × ScoredStock)) (total_sharpe : ℚ) :
    List (String × ℚ) :=
  sel.filterMap (fun p =>
    if 0 < p.2.sharpe_ratio then some (p.1, p.2.sharpe_ratio / total_sharpe) else none)

/-- The clamp of `greedy.py`:
`min(max(raw_weight, MIN_ALLOCATION_PER_STOCK), MAX_ALLOCATION_PER_STOCK)`. -/
def clampWeight (w : ℚ) : ℚ :=
  min (max w MIN_ALLOCATION_PER_STOCK) MAX_ALLOCATION_PER_STOCK

/-- The `allocations` dict of `greedy.py` before the final normalization:
the pre-clamp proportional weights, clamped only when
`target_num_stocks <= 15`. -/
def greedyAllocsPreNorm (sm : List (String × StockMetrics))
    (target_num_stocks : ℕ) : List (String × ℚ) :=
  if target_num_stocks ≤ 15 then
    (greedyPreClamp (selectTop sm target_num_stocks)
      (greedyTotalSharpe (selectTop sm target_num_stocks))).map
      (fun p => (p.1, clampWeight p.2))
  else
    greedyPreClamp (selectTop sm target_num_stocks)
      (greedyTotalSharpe (selectTop sm target_num_stocks))

/-- `greedy_portfolio_allocation` from `src/greedy.py` (the returned
`allocations` dict; display/plot side effects dropped).  Weights are
proportional to Sharpe ratio over the positive-Sharpe selected stocks,
clamped when `target_num_stocks <= 15`, then normalized; the empty dict is
returned when `total_sharpe <= 0`. -/
def greedy_portfolio_allocation (sm : List (String × StockMetrics))
    (target_num_stocks : ℕ) : List (String × ℚ) :=
  if 0 < greedyTotalSharpe (selectTop sm target_num_stocks) then
    (greedyAllocsPreNorm sm target_num_stocks).map
      (fun p => (p.1, p.2 / sumVals (greedyAllocsPreNorm sm target_num_stocks)))
  else []

/-! ## Claim C7: the scorer is the guarded quotient -/

/-- C7: for every mean `m`, standard deviation `s` and risk-free rate `r`,
`calculate_sharpe_ratio m s r` equals `(m - r) / s` when `0 < s` and `0`
when `s ≤ 0`; it is a total Lean function, hence has no error path. -/
theorem calculate_sharpe_ratio_spec (m s r : ℚ) :
    (0 < s → calculate_sharpe_ratio m s r = (m - r) / s) ∧
    (s ≤ 0 → calculate_sharpe_ratio m s r = 0) := by
  constructor
  · intro h
    simp [calculate_sharpe_ratio, h]
  · intro h
    simp [calculate_sharpe_ratio, not_lt.mpr h]

/-- Witness for C7 at `m = 3`, `s = 2`, `r = 1` and at `s = 0`. -/
theorem calculate_sharpe_ratio_spec_witness :
    calculate_sharpe_ratio 3 2 1 = (3 - 1) / 2 ∧ calculate_sharpe_ratio 3 0 1 = 0 :=
  ⟨(calculate_sharpe_ratio_spec 3 2 1).1 (by norm_num),
   (calculate_sharpe_ratio_spec 3 0 1).2 (by norm_num)⟩

/-! ## Claim C5: greedy pre-clamp weights are Sharpe-proportional -/

/-- C5: in `greedy_portfolio_allocation`, each selected stock with strictly
positive Sharpe ratio gets the pre-clamp weight `sharpe / Σ positive
sharpes over the top-K selection`, stocks with non-positive Sharpe ratio
are excluded, and the final weight map is empty whenever that sum is
`≤ 0`. -/
theorem greedy_preclamp_spec (sm : List (String × StockMetrics))
    (K : ℕ) :
    (∀ s w, (s, w) ∈ greedyPreClamp (selectTop sm K) (greedyTotalSharpe (selectTop sm K)) ↔
      ∃ m : ScoredStock, (s, m) ∈ selectTop sm K ∧ 0 < m.sharpe_ratio ∧
        w = m.sharpe_ratio / greedyTotalSharpe (selectTop sm K)) ∧
    (greedyTotalSharpe (selectTop sm K) ≤ 0 → greedy_portfolio_allocation sm K = []) := by
  constructor
  · intro s w
    constructor
    · intro h
      simp only [greedyPreClamp, List.mem_filterMap] at h
      obtain ⟨⟨s', m⟩, hmem, heq⟩ := h
      by_cases hpos : 0 < m.sharpe_ratio
      · simp only [hpos, if_pos, Option.some.injEq, Prod.mk.injEq] at heq
        exact ⟨m, heq.1 ▸ hmem, hpos, heq.2.symm⟩
      · simp [hpos] at heq
    · rintro ⟨m, hmem, hpos, rfl⟩
      simp only [greedyPreClamp, List.mem_filterMap]
      exact ⟨(s, m), hmem, by simp [hpos]⟩
  · intro h
    simp only [greedy_portfolio_allocation]
    rw [if_neg (not_lt.mpr h)]

/-- Witness for C5: a universe with one positive-Sharpe and one
negative-Sharpe stock gives that stock weight `1`; a universe with only a
negative-Sharpe stock gives the empty map. -/
theorem greedy_preclamp_spec_witness :
    (("GOOD", (1 : ℚ)) ∈ greedyPreClamp
        (selectTop [("GOOD", ⟨2, 1, 0, 0⟩), ("BAD", ⟨0, 1, 0, 0⟩)] 10)
        (greedyTotalSharpe (selectTop [("GOOD", ⟨2, 1, 0, 0⟩), ("BAD", ⟨0, 1, 0, 0⟩)] 10))) ∧
    greedy_portfolio_allocation [("BAD", ⟨0, 1, 0, 0⟩)] 10 = [] := by
  constructor
  · exact ((greedy_preclamp_spec [("GOOD", ⟨2, 1, 0, 0⟩), ("BAD", ⟨0, 1, 0, 0⟩)] 10).1
      "GOOD" 1).mpr ⟨⟨(2 - RFR) / 1, 2, 1⟩, by decide, by decide, by decide⟩
  · exact (greedy_preclamp_spec [("BAD", ⟨0, 1, 0, 0⟩)] 10).2 (by decide)

/-! ## Exact representation of portfolio Sharpe ratios

In the source a portfolio Sharpe ratio is the float
`calculate_sharpe_ratio(ret, sqrt(var))`, i.e. `(ret - RFR) / sqrt(var)`
when `sqrt(var) > 0` and `0` otherwise.  We carry the exact pair
`(ret - RFR, var)` and compare such values (and the `-inf` sentinel of the
DP table) with an exact decidable order that agrees with the real order
(`PSharpe.toReal`, `psBlt_iff_toReal_lt`). -/

/-- A value of the form `num / sqrt var` when `0 < var`, and `0` when
`var ≤ 0` (the `std > 0` guard of `calculate_sharpe_ratio`). -/
structure PSharpe where
  num : ℚ
  var : ℚ
deriving DecidableEq

/-- Canonical pair: a non-positive variance denotes the value `0 = 0/sqrt 1`. -/
def PSharpe.canon (p : PSharpe) : ℚ × ℚ :=
  if 0 < p.var then (p.num, p.var) else (0, 1)

/-- Exact comparison `a / sqrt u < b / sqrt v` for `u, v > 0`, by sign
analysis and cross-multiplied squares. -/
def qsqrtLt (a u b v : ℚ) : Bool :=
  if a < 0 then
    if 0 ≤ b then true else decide (b ^ 2 * u < a ^ 2 * v)
  else
    if b ≤ 0 then false else decide (a ^ 2 * v < b ^ 2 * u)

/-- Exact strict comparison of two represented Sharpe values. -/
def PSharpe.blt (p q : PSharpe) : Bool :=
  qsqrtLt p.canon.1 p.canon.2 q.canon.1 q.canon.2

/-- Real denotation of a represented Sharpe value. -/
noncomputable def PSharpe.toReal (p : PSharpe) : ℝ :=
  if 0 < p.var then (p.num : ℝ) / Real.sqrt (p.var : ℝ) else 0

/-- A DP-table score: the `float('-inf')` sentinel or a Sharpe value. -/
inductive Score where
  | negInf : Score
  | ps : PSharpe → Score
deriving DecidableEq

/-- Strict comparison of scores (`-inf` below every Sharpe value). -/
def Score.blt : Score → Score → Bool
  | .negInf, .ps _ => true
  | .negInf, .negInf => false
  | .ps _, .negInf => false
  | .ps p, .ps q => p.blt q

/-- Python `int(q)` on a float: truncation toward zero. -/
def pyInt (q : ℚ) : ℤ :=
  q.num.tdiv q.den

/-! ## DP knapsack allocator (`src/dp_knapsack.py`, `src/algorithms/dp_knapsack.py`)

Both files run the identical DP over the identically scored and selected
stocks (same constants, same transition and same improvement test); they
differ only in how the winning state is extracted and post-processed, so
they share `dpTable` below. -/

/-- A weight map (instrument → weight), in dict insertion order. -/
abbrev WMap := List (String × ℚ)

/-- The DP table `dp`: `units_used ↦ (best sharpe, weights)`, in dict
insertion order. -/
abbrev DTable := List (ℕ × Score × WMap)

/-- `min_units = max(1, int(MIN_ALLOCATION_PER_STOCK * DISCRETIZATION_STEPS))`. -/
def dpMinUnits : ℕ :=
  max 1 (pyInt (MIN_ALLOCATION_PER_STOCK * (DISCRETIZATION_STEPS : ℚ))).toNat

/-- `max_units = int(MAX_ALLOCATION_PER_STOCK * DISCRETIZATION_STEPS)`. -/
def dpMaxUnits : ℕ :=
  (pyInt (MAX_ALLOCATION_PER_STOCK * (DISCRETIZATION_STEPS : ℚ))).toNat

/-- Weight of stock `s` in map `w`, defaulting to `0`
(`normalized_weights.get(s, 0)`). -/
def wGet (w : WMap) (s : String) : ℚ :=
  (dlookup s w).getD 0

/-- Mean return of stock `s` in the `sharpe_ratios` dict (always present
for selected stocks). -/
def meanOf (scores : List (String × ScoredStock)) (s : String) : ℚ :=
  ((dlookup s scores).map (·.mean_return)).getD 0

/-- Std of stock `s` in the `sharpe_ratios` dict. -/
def stdOf (scores : List (String × ScoredStock)) (s : String) : ℚ :=
  ((dlookup s scores).map (·.std_return)).getD 0

/-- `sum(candidate_weights.values())` followed by the `current_total > 0`
guarded normalization (used in the DP transition and, with the identical
code shape, for the `allocations` normalizations of both DP variants). -/
def normalizeW (w : WMap) : WMap :=
  if 0 < sumVals w then w.map (fun p => (p.1, p.2 / sumVals w)) else w

/-- The portfolio Sharpe value computed in the DP transition for candidate
weights `cand` over the selected stocks: return `Σ w_s * mean_s`, variance
`Σ w_s² * std_s²` (independence assumption), Sharpe `(ret - RFR)/sqrt var`
represented exactly. -/
def transScore (scores : List (String × ScoredStock)) (sel : List String)
    (cand : WMap) : PSharpe :=
  let norm := normalizeW cand
  let ret := (sel.map (fun s => wGet norm s * meanOf scores s)).sum
  let var := (sel.map (fun s => wGet norm s ^ 2 * stdOf scores s ^ 2)).sum
  ⟨ret - RFR, var⟩

/-- The candidate weights of a DP transition:
`candidate_weights = prev_weights.copy(); candidate_weights[stock] = alloc`. -/
def dpCand (stock : String) (a : ℕ) (prevW : WMap) : WMap :=
  dictSet stock ((a : ℚ) / (DISCRETIZATION_STEPS : ℚ)) prevW

/-- The improvement test
`new_units not in new_dp or portfolio_sharpe > new_dp[new_units][0]`. -/
def dpImproves (key : ℕ) (score : Score) (ndp : DTable) : Bool :=
  match dlookup key ndp with
  | none => true
  | some (old, _) => Score.blt old score

/-- One DP transition: from previous state `prev` (read from the table
`dpOrig` fixed for the whole stock) allocate `a` units to `stock`, and
record the candidate in `ndp` if the unit level is new or strictly
improved. -/
def stepUpdate (scores : List (String × ScoredStock)) (sel : List String)
    (dpOrig : DTable) (stock : String) (a : ℕ) (ndp : DTable) (prev : ℕ) : DTable :=
  if prev + a ≤ DISCRETIZATION_STEPS then
    match dlookup prev dpOrig with
    | none => ndp
    | some pv =>
      if dpImproves (prev + a) (Score.ps (transScore scores sel (dpCand stock a pv.2))) ndp then
        dictSet (prev + a)
          (Score.ps (transScore scores sel (dpCand stock a pv.2)), dpCand stock a pv.2) ndp
      else ndp
  else ndp

/-- Process one stock: for every candidate allocation `alloc_units` from
`min_units` to `max_units` and every state of the incoming table, run the
transition; `new_dp` starts as a copy of `dp`. -/
def processStock (scores : List (String × ScoredStock)) (sel : List String)
    (dp : DTable) (stock : String) : DTable :=
  (List.range' dpMinUnits (dpMaxUnits - dpMinUnits + 1)).foldl
    (fun ndp a => (dkeys dp).foldl (fun ndp2 prev => stepUpdate scores sel dp stock a ndp2 prev) ndp)
    dp

/-- The full DP table after processing the selected stocks in order,
starting from `{0: (-inf, {})}`. -/
def dpTable (scores : List (String × ScoredStock)) (sel : List String) : DTable :=
  sel.foldl (processStock scores sel) [(0, (Score.negInf, []))]

/-- The window scan of `src/dp_knapsack.py`: iterate unit levels
`units-10 .. units`, keeping the state with the strictly best recorded
Sharpe (first-wins on ties), starting from `(-inf, {})`. -/
def extractBest (dp : DTable) : Score × WMap :=
  (List.range' (DISCRETIZATION_STEPS - 10) 11).foldl
    (fun best u =>
      match dlookup u dp with
      | none => best
      | some p => if Score.blt best.1 p.1 then p else best)
    (Score.negInf, [])

/-- The equal-weight fallback dict comprehension
`{stock: 1.0/len(selected_stock_list) for stock in selected_stock_list}`. -/
def uniformFallback (sel : List String) : WMap :=
  sel.foldl (fun m s => dictSet s (1 / (sel.length : ℚ)) m) []

/-- The cap loop of `src/dp_knapsack.py`: any weight above
`MAX_ALLOCATION_PER_STOCK` is set to `MAX_ALLOCATION_PER_STOCK`. -/
def dpCapped (w : WMap) : WMap :=
  w.map (fun p =>
    (p.1, if MAX_ALLOCATION_PER_STOCK < p.2 then MAX_ALLOCATION_PER_STOCK else p.2))

/-- Post-processing of `src/dp_knapsack.py`: normalize (`total > 0`
guard), cap weights at `MAX_ALLOCATION_PER_STOCK`, drop weights below
`MIN_ALLOCATION_PER_STOCK`, normalize again (same guard). -/
def dpPostProcess (w : WMap) : WMap :=
  normalizeW ((dpCapped (normalizeW w)).filter
    (fun p => decide (MIN_ALLOCATION_PER_STOCK ≤ p.2)))

/-- `dp_knapsack_portfolio_allocation` from `src/dp_knapsack.py` (the
`allocations` entry of the returned dict; display/plot/compare side
effects dropped).  Scores all stocks, selects the top K by Sharpe ratio,
runs the discretized DP, scans the last tolerance window, falls back to
equal weights when nothing was found there, and post-processes. -/
def dp_knapsack_portfolio_allocation (sm : List (String × StockMetrics))
    (target_num_stocks : ℕ) : WMap :=
  let scores := scoreStocks sm
  let sel := dkeys (selectTop sm target_num_stocks)
  let dp := dpTable scores sel
  let best := extractBest dp
  let bw := if best.2 = [] then uniformFallback sel else best.2
  dpPostProcess bw

/-- Aggregate portfolio metrics (`portfolio_return`, variance whose square
root is `portfolio_std`, `num_stocks`).  The zeroed summary of the
empty-input branches is `⟨0, 0, 0⟩`, whose denoted std and Sharpe are also
zero. -/
structure SummaryQ where
  portfolio_return : ℚ
  portfolio_variance : ℚ
  num_stocks : ℕ
deriving DecidableEq

/-- Denoted `portfolio_std = sqrt(variance)`. -/
noncomputable def SummaryQ.stdR (s : SummaryQ) : ℝ :=
  Real.sqrt (s.portfolio_variance : ℝ)

/-- Denoted `portfolio_sharpe = calculate_sharpe_ratio(ret, std)`. -/
noncomputable def SummaryQ.sharpeR (s : SummaryQ) : ℝ :=
  if 0 < s.stdR then ((s.portfolio_return : ℝ) - (RFR : ℝ)) / s.stdR else 0

/-- Summary computed from a weight map over the `sharpe_ratios` dict, as in
the final metrics blocks of the allocators. -/
def summaryOf (scores : List (String × ScoredStock)) (w : WMap) : SummaryQ :=
  ⟨(w.map (fun p => p.2 * meanOf scores p.1)).sum,
   (w.map (fun p => p.2 ^ 2 * stdOf scores p.1 ^ 2)).sum,
   w.length⟩

/-- The window scan of `src/algorithms/dp_knapsack.py`:
`max((dp[u] for u in range(units-10, units+1) if u in dp), default=(0, {}),
key=lambda x: x[0])` (first maximum wins). -/
def algoExtractBest (dp : DTable) : Score × WMap :=
  match (List.range' (DISCRETIZATION_STEPS - 10) 11).filterMap (fun u => dlookup u dp) with
  | [] => (Score.ps ⟨0, 0⟩, [])
  | h :: t => t.foldl (fun best c => if Score.blt best.1 c.1 then c else best) h

/-- The winning weights of `src/algorithms/dp_knapsack.py`:
`best[1] if best[1] else {s: 1.0/len(selected) for s in selected}`. -/
def algoBestWeights (sm : List (String × StockMetrics)) (target_num_stocks : ℕ) : WMap :=
  if (algoExtractBest (dpTable (scoreStocks sm) (dkeys (selectTop sm target_num_stocks)))).2
      = [] then
    uniformFallback (dkeys (selectTop sm target_num_stocks))
  else
    (algoExtractBest (dpTable (scoreStocks sm) (dkeys (selectTop sm target_num_stocks)))).2

/-- `dp_knapsack_portfolio_allocation` from `src/algorithms/dp_knapsack.py`
(returns `(allocations, results)`; display side effects dropped).  Unlike
the `src/` variant it returns early on an empty selection, extracts with
`max(..., default=(0, {}))`, and only renormalizes (no cap and no minimum
cut; the normalization is the same `total > 0` guard as `normalizeW`). -/
def algo_dp_knapsack_portfolio_allocation (sm : List (String × StockMetrics))
    (target_num_stocks : ℕ) : WMap × SummaryQ :=
  if dkeys (selectTop sm target_num_stocks) = [] then ([], ⟨0, 0, 0⟩)
  else
    (normalizeW (algoBestWeights sm target_num_stocks),
     summaryOf (scoreStocks sm) (normalizeW (algoBestWeights sm target_num_stocks)))

/-- The claim-level portfolio Sharpe value of a weight map over a metrics
universe, under the independence assumption of the specification
(`portfolio variance = Σ weight_i² · std_i²`). -/
def portfolioScore (sm : List (String × StockMetrics)) (w : WMap) : PSharpe :=
  let scores := scoreStocks sm
  ⟨(w.map (fun p => p.2 * meanOf scores p.1)).sum - RFR,
   (w.map (fun p => p.2 ^ 2 * stdOf scores p.1 ^ 2)).sum⟩

/-- The claim-level portfolio Sharpe ratio as a real number. -/
noncomputable def portfolioSharpeR (sm : List (String × StockMetrics)) (w : WMap) : ℝ :=
  (portfolioScore sm w).toReal

/-- `qsqrtLt` decides the real comparison `a / sqrt u < b / sqrt v` for
positive `u`, `v`. -/
theorem qsqrtLt_iff (a u b v : ℚ) (hu : 0 < u) (hv : 0 < v) :
    qsqrtLt a u b v = true ↔
      (a : ℝ) / Real.sqrt (u : ℝ) < (b : ℝ) / Real.sqrt (v : ℝ) := by
  have hu' : (0 : ℝ) < (u : ℝ) := by exact_mod_cast hu
  have hv' : (0 : ℝ) < (v : ℝ) := by exact_mod_cast hv
  have hsu : (0 : ℝ) < Real.sqrt (u : ℝ) := Real.sqrt_pos.mpr hu'
  have hsv : (0 : ℝ) < Real.sqrt (v : ℝ) := Real.sqrt_pos.mpr hv'
  have hdiv : (a : ℝ) / Real.sqrt (u : ℝ) < (b : ℝ) / Real.sqrt (v : ℝ) ↔
      (a : ℝ) * Real.sqrt (v : ℝ) < (b : ℝ) * Real.sqrt (u : ℝ) :=
    div_lt_div_iff₀ hsu hsv
  unfold qsqrtLt
  by_cases ha : a < 0
  · have ha' : (a : ℝ) < 0 := by exact_mod_cast ha
    by_cases hb : 0 ≤ b
    · have hb' : (0 : ℝ) ≤ (b : ℝ) := by exact_mod_cast hb
      rw [if_pos ha, if_pos hb]
      exact iff_of_true rfl
        (lt_of_lt_of_le (div_neg_of_neg_of_pos ha' hsu) (div_nonneg hb' hsv.le))
    · have hb2 : b < 0 := lt_of_not_ge hb
      have hb' : (b : ℝ) < 0 := by exact_mod_cast hb2
      rw [if_pos ha, if_neg hb, decide_eq_true_eq, hdiv]
      have key : (b : ℝ) ^ 2 * (u : ℝ) < (a : ℝ) ^ 2 * (v : ℝ) ↔
          (-((b : ℝ) * Real.sqrt (u : ℝ))) < -((a : ℝ) * Real.sqrt (v : ℝ)) := by
        rw [← pow_lt_pow_iff_left₀ (a := -((b : ℝ) * Real.sqrt (u : ℝ)))
            (by nlinarith [Real.sqrt_nonneg (u : ℝ)]) (by nlinarith [Real.sqrt_nonneg (v : ℝ)])
            (two_ne_zero)]
        have e1 : (-((b : ℝ) * Real.sqrt (u : ℝ))) ^ 2 = (b : ℝ) ^ 2 * (u : ℝ) := by
          rw [neg_pow, mul_pow, Real.sq_sqrt hu'.le]; ring
        have e2 : (-((a : ℝ) * Real.sqrt (v : ℝ))) ^ 2 = (a : ℝ) ^ 2 * (v : ℝ) := by
          rw [neg_pow, mul_pow, Real.sq_sqrt hv'.le]; ring
        rw [e1, e2]
      constructor
      · intro h
        have h' : (b : ℝ) ^ 2 * (u : ℝ) < (a : ℝ) ^ 2 * (v : ℝ) := by exact_mod_cast h
        exact neg_lt_neg_iff.mp (key.mp h')
      · intro h
        have h' := key.mpr (neg_lt_neg h)
        exact_mod_cast h'
  · have ha' : (0 : ℝ) ≤ (a : ℝ) := by exact_mod_cast not_lt.mp ha
    rw [if_neg ha]
    by_cases hb : b ≤ 0
    · have hb' : (b : ℝ) ≤ 0 := by exact_mod_cast hb
      rw [if_pos hb]
      refine iff_of_false (by simp) (not_lt.mpr ?_)
      exact le_trans (div_nonpos_of_nonpos_of_nonneg hb' hsv.le) (div_nonneg ha' hsu.le)
    · have hb2 : 0 < b := lt_of_not_ge hb
      have hb' : (0 : ℝ) < (b : ℝ) := by exact_mod_cast hb2
      rw [if_neg hb, decide_eq_true_eq, hdiv]
      rw [← pow_lt_pow_iff_left₀ (a := (a : ℝ) * Real.sqrt (v : ℝ))
          (by positivity) (by positivity) (two_ne_zero)]
      have e1 : ((a : ℝ) * Real.sqrt (v : ℝ)) ^ 2 = (a : ℝ) ^ 2 * (v : ℝ) := by
        rw [mul_pow, Real.sq_sqrt hv'.le]
      have e2 : ((b : ℝ) * Real.sqrt (u : ℝ)) ^ 2 = (b : ℝ) ^ 2 * (u : ℝ) := by
        rw [mul_pow, Real.sq_sqrt hu'.le]
      rw [e1, e2]
      exact ⟨fun h => by exact_mod_cast h, fun h => by exact_mod_cast h⟩

/-- `PSharpe.toReal` through the canonical pair. -/
theorem PSharpe.toReal_eq_canon (p : PSharpe) :
    p.toReal = (p.canon.1 : ℝ) / Real.sqrt (p.canon.2 : ℝ) := by
  unfold PSharpe.toReal PSharpe.canon
  by_cases h : 0 < p.var
  · simp [h]
  · simp [h]

/-- The exact comparison `PSharpe.blt` agrees with the real order of the
denoted Sharpe values. -/
theorem psBlt_iff_toReal_lt (p q : PSharpe) :
    p.blt q = true ↔ p.toReal < q.toReal := by
  have hp : 0 < p.canon.2 := by
    unfold PSharpe.canon; by_cases h : 0 < p.var <;> simp [h]
  have hq : 0 < q.canon.2 := by
    unfold PSharpe.canon; by_cases h : 0 < q.var <;> simp [h]
  rw [PSharpe.toReal_eq_canon, PSharpe.toReal_eq_canon]
  exact qsqrtLt_iff _ _ _ _ hp hq

/-! ## Dict and fold lemmas -/

theorem dlookup_eq_none_iff {κ α : Type} [DecidableEq κ] (k : κ) (l : List (κ × α)) :
    dlookup k l = none ↔ k ∉ dkeys l := by
  induction l with
  | nil => simp [dlookup, dkeys]
  | cons h t ih =>
    obtain ⟨k', v⟩ := h
    by_cases hk : k' = k
    · subst hk
      simp [dlookup, dkeys]
    · simp [dlookup, hk, dkeys, ih, Ne.symm hk]

theorem dlookup_isSome_iff {κ α : Type} [DecidableEq κ] (k : κ) (l : List (κ × α)) :
    (dlookup k l).isSome = true ↔ k ∈ dkeys l := by
  rcases h : dlookup k l with _ | v
  · simp [(dlookup_eq_none_iff k l).mp h]
  · simp only [Option.isSome_some, true_iff]
    by_contra hmem
    rw [← dlookup_eq_none_iff k l] at hmem
    rw [h] at hmem
    cases hmem

theorem mem_dkeys_dictSet_self {κ α : Type} [DecidableEq κ] (k : κ) (v : α)
    (l : List (κ × α)) : k ∈ dkeys (dictSet k v l) := by
  induction l with
  | nil => simp [dictSet, dkeys]
  | cons h t ih =>
    obtain ⟨k', v'⟩ := h
    by_cases hk : k' = k
    · simp [dictSet, hk, dkeys]
    · simp only [dictSet, if_neg hk, dkeys, List.map_cons, List.mem_cons]
      exact Or.inr ih

theorem mem_dkeys_dictSet_of_mem {κ α : Type} [DecidableEq κ] {m : κ} (k : κ) (v : α)
    {l : List (κ × α)} (h : m ∈ dkeys l) : m ∈ dkeys (dictSet k v l) := by
  induction l with
  | nil => cases h
  | cons hd t ih =>
    obtain ⟨k', v'⟩ := hd
    by_cases hk : k' = k
    · simpa [dictSet, hk, dkeys] using h
    · simp only [dkeys, List.map_cons, List.mem_cons] at h
      rcases h with h | h
      · simp [dictSet, if_neg hk, dkeys, h]
      · simp only [dictSet, if_neg hk, dkeys, List.map_cons, List.mem_cons]
        exact Or.inr (ih h)

theorem mem_dkeys_dictSet {κ α : Type} [DecidableEq κ] {m : κ} {k : κ} {v : α}
    {l : List (κ × α)} (h : m ∈ dkeys (dictSet k v l)) : m = k ∨ m ∈ dkeys l := by
  induction l with
  | nil => simpa [dictSet, dkeys] using h
  | cons hd t ih =>
    obtain ⟨k', v'⟩ := hd
    rw [dictSet] at h
    split at h
    · next hk =>
      subst hk
      simp only [dkeys, List.map_cons, List.mem_cons] at h ⊢
      tauto
    · simp only [dkeys, List.map_cons, List.mem_cons] at h ⊢
      rcases h with h | h
      · tauto
      · rcases ih h with h | h <;> tauto

theorem foldl_pres {α β : Type} (P : β → Prop) (f : β → α → β) (l : List α) (b : β)
    (hstep : ∀ acc x, x ∈ l → P acc → P (f acc x)) (hb : P b) : P (l.foldl f b) := by
  induction l generalizing b with
  | nil => simpa using hb
  | cons x t ih =>
    simp only [List.foldl_cons]
    exact ih (f b x) (fun acc y hy => hstep acc y (List.mem_cons_of_mem x hy))
      (hstep b x (List.mem_cons_self x t) hb)

theorem foldl_estab {α β : Type} (P : β → Prop) (f : β → α → β)
    (hstep : ∀ acc y, P acc → P (f acc y)) :
    ∀ (l : List α) (b : β) (x : α), x ∈ l → (∀ acc, P (f acc x)) → P (l.foldl f b) := by
  intro l
  induction l with
  | nil => intro b x hx _; cases hx
  | cons y t ih =>
    intro b x hx hestab
    simp only [List.foldl_cons]
    rcases List.mem_cons.mp hx with h | h
    · subst h
      exact foldl_pres P f t (f b x) (fun acc z _ => hstep acc z) (hestab b)
    · exact ih (f b y) x h hestab

/-! ## DP table key bounds and reachability -/

theorem dpMinUnits_eq : dpMinUnits = 1 := by decide

theorem dpMaxUnits_eq : dpMaxUnits = 20 := by decide

/-- `stepUpdate` only grows the key set. -/
theorem stepUpdate_keys_mono {scores sel dpOrig stock a ndp prev} {m : ℕ}
    (h : m ∈ dkeys ndp) :
    m ∈ dkeys (stepUpdate scores sel dpOrig stock a ndp prev) := by
  unfold stepUpdate
  split
  · split
    · exact h
    · split
      · exact mem_dkeys_dictSet_of_mem _ _ h
      · exact h
  · exact h

/-- Every key of a `stepUpdate` output is an old key or `prev + a`. -/
theorem stepUpdate_keys_sub {scores sel dpOrig stock a ndp prev} {m : ℕ}
    (h : m ∈ dkeys (stepUpdate scores sel dpOrig stock a ndp prev)) :
    m ∈ dkeys ndp ∨ m = prev + a := by
  unfold stepUpdate at h
  split at h
  · split at h
    · exact Or.inl h
    · split at h
      · rcases mem_dkeys_dictSet h with h | h
        · exact Or.inr h
        · exact Or.inl h
      · exact Or.inl h
  · exact Or.inl h

/-- When the previous unit level exists and the sum stays within the grid,
`stepUpdate` records the new unit level (whether or not it improves). -/
theorem stepUpdate_mem {scores sel dpOrig stock a prev} (ndp : DTable)
    (hprev : prev ∈ dkeys dpOrig) (hle : prev + a ≤ DISCRETIZATION_STEPS) :
    prev + a ∈ dkeys (stepUpdate scores sel dpOrig stock a ndp prev) := by
  unfold stepUpdate
  rw [if_pos hle]
  split
  · next hl =>
    exact absurd ((dlookup_eq_none_iff prev dpOrig).mp hl) (by simpa using hprev)
  · split
    · exact mem_dkeys_dictSet_self _ _ _
    · next himp =>
      rw [← dlookup_isSome_iff]
      unfold dpImproves at himp
      rcases hl2 : dlookup (prev + a) ndp with _ | old
      · rw [hl2] at himp; simp at himp
      · simp [hl2]

/-- `processStock` only grows the key set. -/
theorem processStock_keys_mono {scores sel dp stock} {m : ℕ} (h : m ∈ dkeys dp) :
    m ∈ dkeys (processStock scores sel dp stock) := by
  unfold processStock
  refine foldl_pres (fun t => m ∈ dkeys t) _ _ _ (fun acc x _ hacc => ?_) h
  exact foldl_pres (fun t => m ∈ dkeys t) _ _ _
    (fun acc2 prev _ hacc2 => stepUpdate_keys_mono hacc2) hacc

/-- Keys of `processStock` are bounded by the old bound plus `max_units`. -/
theorem processStock_keys_le {scores sel dp stock} {B : ℕ}
    (hB : ∀ m ∈ dkeys dp, m ≤ B) :
    ∀ m ∈ dkeys (processStock scores sel dp stock), m ≤ B + dpMaxUnits := by
  unfold processStock
  refine foldl_pres (fun t => ∀ m ∈ dkeys t, m ≤ B + dpMaxUnits) _ _ _ ?_ ?_
  · intro acc a ha hacc
    refine foldl_pres (fun t => ∀ m ∈ dkeys t, m ≤ B + dpMaxUnits) _ _ _ ?_ hacc
    intro acc2 prev hprev hacc2 m hm
    rcases stepUpdate_keys_sub hm with h | h
    · exact hacc2 m h
    · subst h
      have hpB : prev ≤ B := hB prev hprev
      have haM : a ≤ dpMaxUnits := by
        rcases List.mem_range'_1.mp ha with ⟨h1, h2⟩
        have e1 := dpMinUnits_eq
        have e2 := dpMaxUnits_eq
        omega
      omega
  · intro m hm
    exact le_trans (hB m hm) (by omega)

/-- When a unit level is reachable before a stock is processed, adding any
in-range allocation of that stock stays reachable. -/
theorem processStock_mem_add {scores sel dp stock} {prev a : ℕ}
    (hprev : prev ∈ dkeys dp) (hmin : dpMinUnits ≤ a) (hmax : a ≤ dpMaxUnits)
    (hle : prev + a ≤ DISCRETIZATION_STEPS) :
    prev + a ∈ dkeys (processStock scores sel dp stock) := by
  unfold processStock
  have hmem : a ∈ List.range' dpMinUnits (dpMaxUnits - dpMinUnits + 1) := by
    rw [List.mem_range'_1]
    omega
  refine foldl_estab (fun t => prev + a ∈ dkeys t) _
    (fun acc y hacc => foldl_pres (fun t => prev + a ∈ dkeys t) _ _ _
      (fun acc2 q _ h2 => stepUpdate_keys_mono h2) hacc)
    _ _ a hmem (fun acc => ?_)
  exact foldl_estab (fun t => prev + a ∈ dkeys t) _
    (fun acc2 q h2 => stepUpdate_keys_mono h2)
    _ _ prev hprev (fun acc2 => stepUpdate_mem acc2 hprev hle)

/-- Key bound for the DP table: after processing `l` stocks starting from a
table bounded by `B`, every key is at most `B + max_units · |l|`. -/
theorem foldl_processStock_keys_le (scores : List (String × ScoredStock))
    (sel : List String) (l : List String) (dp : DTable) (B : ℕ)
    (hB : ∀ m ∈ dkeys dp, m ≤ B) :
    ∀ m ∈ dkeys (l.foldl (processStock scores sel) dp), m ≤ B + dpMaxUnits * l.length := by
  induction l generalizing dp B with
  | nil => simpa using hB
  | cons s t ih =>
    simp only [List.foldl_cons, List.length_cons]
    intro m hm
    have := ih (processStock scores sel dp s) (B + dpMaxUnits)
      (processStock_keys_le hB) m hm
    rw [Nat.mul_succ]
    omega

/-- Every key of the DP table is at most `max_units` times the number of
selected stocks. -/
theorem dpTable_keys_le (scores : List (String × ScoredStock)) (sel : List String) :
    ∀ m ∈ dkeys (dpTable scores sel), m ≤ dpMaxUnits * sel.length := by
  intro m hm
  have := foldl_processStock_keys_le scores sel sel [(0, (Score.negInf, []))] 0
    (by intro m hm; simpa [dkeys] using hm) m hm
  omega

/-- Reachability: starting from a reachable unit level, processing `n ≤ |l|`
further stocks at 18 units each reaches `m + 18·n` (if within the grid). -/
theorem foldl_processStock_reach (scores : List (String × ScoredStock))
    (sel : List String) (l : List String) (dp : DTable) (m : ℕ)
    (hm : m ∈ dkeys dp) (n : ℕ) (hn : n ≤ l.length)
    (hle : m + 18 * n ≤ DISCRETIZATION_STEPS) :
    m + 18 * n ∈ dkeys (l.foldl (processStock scores sel) dp) := by
  induction n generalizing l dp m with
  | zero =>
    simp only [Nat.mul_zero, Nat.add_zero]
    exact foldl_pres (fun t => m ∈ dkeys t) _ _ _
      (fun acc x _ h => processStock_keys_mono h) hm
  | succ k ih =>
    cases l with
    | nil => simp at hn
    | cons s t =>
      simp only [List.foldl_cons]
      have h18 : m + 18 ∈ dkeys (processStock scores sel dp s) := by
        have := @processStock_mem_add scores sel dp s m 18
          hm (by rw [dpMinUnits_eq]; omega) (by rw [dpMaxUnits_eq]; omega)
          (by unfold DISCRETIZATION_STEPS at hle ⊢; omega)
        exact this
      have := ih t (processStock scores sel dp s) (m + 18) h18
        (by simpa using Nat.le_of_succ_le_succ hn) (by omega)
      have heq : m + 18 + 18 * k = m + 18 * (k + 1) := by ring
      rwa [heq] at this

/-- With at least five selected stocks, unit level 90 is reachable, so the
tolerance window is never empty. -/
theorem dpTable_mem_ninety (scores : List (String × ScoredStock)) (sel : List String)
    (h5 : 5 ≤ sel.length) : (90 : ℕ) ∈ dkeys (dpTable scores sel) := by
  have := foldl_processStock_reach scores sel sel [(0, (Score.negInf, []))] 0
    (by simp [dkeys]) 5 h5 (by unfold DISCRETIZATION_STEPS; omega)
  simpa [dpTable] using this

/-! ## The empty tolerance window and the equal-weight fallback -/

/-- The tolerance window of the DP table holds no reachable state. -/
def dpWindowEmpty (dp : DTable) : Prop :=
  ∀ u ∈ List.range' (DISCRETIZATION_STEPS - 10) 11, dlookup u dp = none

/-- A fold that skips missing unit levels leaves its accumulator untouched
when every level of the scanned range is missing. -/
theorem foldl_skip_none {β : Type} (dp : DTable) (g : β → ℕ → Score × WMap → β)
    (us : List ℕ) (b : β) (h : ∀ u ∈ us, dlookup u dp = none) :
    us.foldl (fun acc u =>
      match dlookup u dp with
      | none => acc
      | some p => g acc u p) b = b := by
  induction us generalizing b with
  | nil => rfl
  | cons u t ih =>
    simp only [List.foldl_cons, h u (List.mem_cons_self u t)]
    exact ih b (fun x hx => h x (List.mem_cons_of_mem u hx))

/-- On an empty window the `src/dp_knapsack.py` scan returns the sentinel. -/
theorem extractBest_of_windowEmpty (dp : DTable) (h : dpWindowEmpty dp) :
    extractBest dp = (Score.negInf, []) := by
  unfold extractBest
  exact foldl_skip_none dp (fun best _ p => if Score.blt best.1 p.1 then p else best)
    _ _ h

/-- On an empty window the `src/algorithms/dp_knapsack.py` scan returns its
default `(0, {})`. -/
theorem algoExtractBest_of_windowEmpty (dp : DTable) (h : dpWindowEmpty dp) :
    algoExtractBest dp = (Score.ps ⟨0, 0⟩, []) := by
  unfold algoExtractBest
  have : (List.range' (DISCRETIZATION_STEPS - 10) 11).filterMap (fun u => dlookup u dp) = [] := by
    rw [List.filterMap_eq_nil_iff]
    exact h
  rw [this]

/-- At most four selected stocks cannot reach the tolerance window. -/
theorem windowEmpty_of_short (scores : List (String × ScoredStock)) (sel : List String)
    (h : sel.length ≤ 4) : dpWindowEmpty (dpTable scores sel) := by
  intro u hu
  rw [dlookup_eq_none_iff]
  intro hmem
  have hle := dpTable_keys_le scores sel u hmem
  rw [dpMaxUnits_eq] at hle
  rcases List.mem_range'_1.mp hu with ⟨h1, _⟩
  unfold DISCRETIZATION_STEPS at h1
  omega

/-- An empty window forces at most four selected stocks (with five or more,
level 90 is always reachable). -/
theorem short_of_windowEmpty (scores : List (String × ScoredStock)) (sel : List String)
    (h : dpWindowEmpty (dpTable scores sel)) : sel.length ≤ 4 := by
  by_contra h5
  have hmem := dpTable_mem_ninety scores sel (by omega)
  have hnone := h 90 (by rw [List.mem_range'_1]; unfold DISCRETIZATION_STEPS; omega)
  rw [dlookup_eq_none_iff] at hnone
  exact hnone hmem

/-! ## Normal forms for the fallback path -/

theorem insertDescBy_perm {α : Type} (key : α → ℚ) (x : α) (l : List α) :
    List.Perm (insertDescBy key x l) (x :: l) := by
  induction l with
  | nil => exact List.Perm.refl _
  | cons y t ih =>
    rw [insertDescBy]
    split
    · exact List.Perm.refl _
    · exact (ih.cons y).trans (List.Perm.swap x y t)

theorem sortByKeyDesc_perm {α : Type} (key : α → ℚ) (l : List α) :
    List.Perm (sortByKeyDesc key l) l := by
  induction l with
  | nil => exact List.Perm.refl _
  | cons x t ih =>
    have : sortByKeyDesc key (x :: t) = insertDescBy key x (sortByKeyDesc key t) := rfl
    rw [this]
    exact (insertDescBy_perm key x _).trans (ih.cons x)

theorem dkeys_scoreStocks (sm : List (String × StockMetrics)) :
    dkeys (scoreStocks sm) = dkeys sm := by
  induction sm with
  | nil => rfl
  | cons p t _ => simp [scoreStocks, dkeys]

/-- The selected tickers are distinct whenever the input tickers are
(`stocks_metrics` is a Python dict, so its keys always are). -/
theorem selectTop_keys_nodup (sm : List (String × StockMetrics)) (K : ℕ)
    (h : (dkeys sm).Nodup) : (dkeys (selectTop sm K)).Nodup := by
  have hperm : List.Perm (sortBySharpeDesc (scoreStocks sm)) (scoreStocks sm) :=
    sortByKeyDesc_perm _ _
  have h1 : (dkeys (scoreStocks sm)).Nodup := by rwa [dkeys_scoreStocks]
  have h2 : (dkeys (sortBySharpeDesc (scoreStocks sm))).Nodup := by
    have hpm := hperm.map (fun p : String × ScoredStock => p.1)
    have heq : dkeys (sortBySharpeDesc (scoreStocks sm)) =
        (sortBySharpeDesc (scoreStocks sm)).map (fun p => p.1) := rfl
    rw [heq]
    have h1m : ((scoreStocks sm).map (fun p : String × ScoredStock => p.1)).Nodup := h1
    exact hpm.nodup_iff.mpr h1m
  have h3 : dkeys (selectTop sm K) = (dkeys (sortBySharpeDesc (scoreStocks sm))).take K := by
    simp [selectTop, dkeys, List.map_take]
  rw [h3]
  exact h2.sublist (List.take_sublist K _)

theorem dictSet_eq_append {κ α : Type} [DecidableEq κ] (k : κ) (v : α)
    (l : List (κ × α)) (h : k ∉ dkeys l) : dictSet k v l = l ++ [(k, v)] := by
  induction l with
  | nil => rfl
  | cons p t ih =>
    obtain ⟨k', v'⟩ := p
    have hk : k' ≠ k := by
      intro hk
      exact h (by simp [dkeys, hk])
    rw [dictSet, if_neg hk, ih (fun hm => h (by simp [dkeys] at hm ⊢; tauto))]
    simp

theorem foldl_dictSet_const (c : ℚ) :
    ∀ (l : List String) (m : WMap), l.Nodup → (∀ s ∈ l, s ∉ dkeys m) →
      l.foldl (fun m s => dictSet s c m) m = m ++ l.map (fun s => (s, c)) := by
  intro l
  induction l with
  | nil => intro m _ _; simp
  | cons s t ih =>
    intro m hnd hdisj
    simp only [List.foldl_cons]
    rw [dictSet_eq_append s c m (hdisj s (List.mem_cons_self s t))]
    rw [ih (m ++ [(s, c)]) (List.Nodup.of_cons hnd) ?_]
    · simp
    · intro x hx
      have hxs : x ≠ s := by
        intro hxs
        subst hxs
        exact (List.nodup_cons.mp hnd).1 hx
      have hxm : x ∉ dkeys m := hdisj x (List.mem_cons_of_mem s hx)
      simp [dkeys, List.map_append] at hxm ⊢
      exact ⟨hxm, hxs⟩

/-- The fallback dict comprehension is the uniform map over the selected
tickers (for distinct tickers). -/
theorem uniformFallback_eq (sel : List String) (h : sel.Nodup) :
    uniformFallback sel = sel.map (fun s => (s, 1 / (sel.length : ℚ))) := by
  unfold uniformFallback
  have := foldl_dictSet_const (1 / (sel.length : ℚ)) sel [] h (by simp [dkeys])
  simpa using this

theorem map_div_map_const (l : List String) (c d : ℚ) :
    (l.map (fun s => (s, c))).map (fun p => (p.1, p.2 / d)) =
      l.map (fun s => (s, c / d)) := by
  simp [List.map_map]

theorem map_cap_map_const (l : List String) (c : ℚ) :
    (l.map (fun s => (s, c))).map
        (fun p => (p.1, if MAX_ALLOCATION_PER_STOCK < p.2 then MAX_ALLOCATION_PER_STOCK else p.2)) =
      l.map (fun s => (s, if MAX_ALLOCATION_PER_STOCK < c then MAX_ALLOCATION_PER_STOCK else c)) := by
  simp [List.map_map]

theorem sumVals_map_const (l : List String) (c : ℚ) :
    sumVals (l.map (fun s => (s, c))) = (l.length : ℚ) * c := by
  induction l with
  | nil => simp [sumVals]
  | cons s t ih =>
    simp only [List.map_cons, sumVals, List.length_cons] at ih ⊢
    rw [List.sum_cons, ih]
    push_cast
    ring

/-- Post-processing preserves a uniform map over at most four (and at
least one) tickers: normalization is the identity, the cap lowers all
weights equally, the minimum cut keeps everything, and renormalization
restores `1/n`. -/
theorem dpPostProcess_const (sel : List String) (h1 : 1 ≤ sel.length)
    (h4 : sel.length ≤ 4) :
    dpPostProcess (sel.map (fun s => (s, 1 / (sel.length : ℚ)))) =
      sel.map (fun s => (s, 1 / (sel.length : ℚ))) := by
  have hn : ((sel.length : ℚ)) ≠ 0 := Nat.cast_ne_zero.mpr (by omega)
  have htot : sumVals (sel.map (fun s => (s, 1 / (sel.length : ℚ)))) = 1 := by
    rw [sumVals_map_const]
    field_simp
  have hnorm : normalizeW (sel.map (fun s => (s, 1 / (sel.length : ℚ)))) =
      sel.map (fun s => (s, 1 / (sel.length : ℚ))) := by
    unfold normalizeW
    rw [htot, if_pos (by norm_num : (0 : ℚ) < 1), map_div_map_const]
    simp [div_one]
  have hcap : MAX_ALLOCATION_PER_STOCK < 1 / (sel.length : ℚ) := by
    unfold MAX_ALLOCATION_PER_STOCK
    rw [div_lt_div_iff₀ (by norm_num) (by exact_mod_cast Nat.pos_of_ne_zero (by omega))]
    have : ((sel.length : ℚ)) ≤ 4 := by exact_mod_cast h4
    linarith
  have hcapped : dpCapped (sel.map (fun s => (s, 1 / (sel.length : ℚ)))) =
      sel.map (fun s => (s, MAX_ALLOCATION_PER_STOCK)) := by
    unfold dpCapped
    rw [map_cap_map_const]
    simp only [if_pos hcap]
  have hkeep : (sel.map (fun s => (s, MAX_ALLOCATION_PER_STOCK))).filter
      (fun p => decide (MIN_ALLOCATION_PER_STOCK ≤ p.2)) =
      sel.map (fun s => (s, MAX_ALLOCATION_PER_STOCK)) := by
    rw [List.filter_eq_self]
    intro a ha
    rcases List.mem_map.mp ha with ⟨s, _, rfl⟩
    simp [MIN_ALLOCATION_PER_STOCK, MAX_ALLOCATION_PER_STOCK]
    norm_num
  unfold dpPostProcess
  rw [hnorm, hcapped, hkeep]
  unfold normalizeW
  rw [sumVals_map_const]
  rw [if_pos (by
    unfold MAX_ALLOCATION_PER_STOCK
    have hposl : (0 : ℚ) < (sel.length : ℚ) := by exact_mod_cast Nat.pos_of_ne_zero (by omega)
    positivity)]
  rw [map_div_map_const]
  congr 1
  funext s
  congr 1
  unfold MAX_ALLOCATION_PER_STOCK
  field_simp
  ring

/-- On an empty tolerance window, `src/dp_knapsack.py` returns the
post-processed equal-weight fallback. -/
theorem dp_alloc_of_windowEmpty (sm : List (String × StockMetrics)) (K : ℕ)
    (hwin : dpWindowEmpty (dpTable (scoreStocks sm) (dkeys (selectTop sm K)))) :
    dp_knapsack_portfolio_allocation sm K =
      dpPostProcess (uniformFallback (dkeys (selectTop sm K))) := by
  simp only [dp_knapsack_portfolio_allocation]
  rw [extractBest_of_windowEmpty _ hwin]
  simp

/-! ## Claim C6: empty tolerance window means equal-weight fallback -/

/-- C6: whenever the DP table has no reachable state in the final tolerance
window of unit levels (`units-10` through `units`, i.e. 90–100), both DP
variants return the equal weighting `1/K` over the `K` initially selected
instruments; being total Lean functions, the fallback never surfaces as an
error.  The `Nodup` hypothesis records that `stocks_metrics` is a Python
dict, whose keys are distinct. -/
theorem dp_windowEmpty_fallback (sm : List (String × StockMetrics)) (K : ℕ)
    (hnd : (dkeys sm).Nodup)
    (hwin : dpWindowEmpty (dpTable (scoreStocks sm) (dkeys (selectTop sm K)))) :
    dp_knapsack_portfolio_allocation sm K =
      (dkeys (selectTop sm K)).map
        (fun s => (s, 1 / (((dkeys (selectTop sm K)).length : ℚ)))) ∧
    (algo_dp_knapsack_portfolio_allocation sm K).1 =
      (dkeys (selectTop sm K)).map
        (fun s => (s, 1 / (((dkeys (selectTop sm K)).length : ℚ)))) := by
  have hnodup : (dkeys (selectTop sm K)).Nodup := selectTop_keys_nodup sm K hnd
  have hshort : (dkeys (selectTop sm K)).length ≤ 4 := short_of_windowEmpty _ _ hwin
  have hlen : ((dkeys (selectTop sm K)).length : ℚ) =
      ((dkeys (selectTop sm K)).length : ℚ) := rfl
  constructor
  · rw [dp_alloc_of_windowEmpty sm K hwin, uniformFallback_eq _ hnodup]
    rcases Nat.eq_zero_or_pos (dkeys (selectTop sm K)).length with h0 | hpos
    · rw [List.length_eq_zero.mp h0]
      rfl
    · exact dpPostProcess_const _ hpos hshort
  · unfold algo_dp_knapsack_portfolio_allocation
    by_cases hempty : dkeys (selectTop sm K) = []
    · rw [if_pos hempty, hempty]
      rfl
    · rw [if_neg hempty]
      have hbw : algoBestWeights sm K = (dkeys (selectTop sm K)).map
          (fun s => (s, 1 / (((dkeys (selectTop sm K)).length : ℚ)))) := by
        unfold algoBestWeights
        rw [algoExtractBest_of_windowEmpty _ hwin]
        rw [if_pos rfl]
        exact uniformFallback_eq _ hnodup
      have hposn : 0 < (dkeys (selectTop sm K)).length :=
        List.length_pos.mpr hempty
      have htot : sumVals ((dkeys (selectTop sm K)).map
          (fun s => (s, 1 / (((dkeys (selectTop sm K)).length : ℚ))))) = 1 := by
        rw [sumVals_map_const]
        have : ((dkeys (selectTop sm K)).length : ℚ) ≠ 0 :=
          Nat.cast_ne_zero.mpr (by omega)
        field_simp
      show normalizeW (algoBestWeights sm K) = _
      rw [hbw]
      unfold normalizeW
      rw [htot]
      rw [if_pos (by norm_num : (0 : ℚ) < 1), map_div_map_const]
      simp [div_one]

/-- Witness for C6: a two-stock universe cannot reach the window, and both
DP variants return the 1/2–1/2 split (on the Sharpe-descending selection
order `V`, `U`). -/
theorem dp_windowEmpty_fallback_witness :
    dp_knapsack_portfolio_allocation [("U", ⟨1, 1, 0, 0⟩), ("V", ⟨2, 1, 0, 0⟩)] 10 =
      [("V", (1 : ℚ)/2), ("U", 1/2)] ∧
    (algo_dp_knapsack_portfolio_allocation [("U", ⟨1, 1, 0, 0⟩), ("V", ⟨2, 1, 0, 0⟩)] 10).1 =
      [("V", (1 : ℚ)/2), ("U", 1/2)] := by
  have h := dp_windowEmpty_fallback [("U", ⟨1, 1, 0, 0⟩), ("V", ⟨2, 1, 0, 0⟩)] 10
    (by decide)
    (windowEmpty_of_short _ _ (by decide))
  refine ⟨h.1.trans ?_, h.2.trans ?_⟩ <;> decide

/-! ## Claim C1: DP Sharpe ratio versus greedy Sharpe ratio -/

/-- A two-stock universe on which the DP allocator is strictly worse than
the greedy allocator: the Sharpe ratios are 9 (std 1) and 1 (std 10), the
greedy clamp yields weights 2/3–1/3, while the DP window is unreachable
(two stocks reach at most 40 units), so the DP falls back to 1/2–1/2. -/
def smDpLoses : List (String × StockMetrics) :=
  [("A", ⟨45277/5000, 1, 0, 0⟩), ("B", ⟨50277/5000, 10, 0, 0⟩)]

/-- C1 counterexample: on `smDpLoses` the DP Knapsack allocation has a
strictly smaller portfolio Sharpe ratio (independence assumption) than the
Greedy Proportional allocation on the same instrument set. -/
theorem dp_vs_greedy_counterexample :
    portfolioSharpeR smDpLoses (dp_knapsack_portfolio_allocation smDpLoses 10) <
      portfolioSharpeR smDpLoses (greedy_portfolio_allocation smDpLoses 10) := by
  have hwin := windowEmpty_of_short (scoreStocks smDpLoses)
    (dkeys (selectTop smDpLoses 10)) (by decide)
  have hdp : dp_knapsack_portfolio_allocation smDpLoses 10 =
      [("A", (1 : ℚ)/2), ("B", 1/2)] := by
    rw [dp_alloc_of_windowEmpty smDpLoses 10 hwin]
    decide
  have hg : greedy_portfolio_allocation smDpLoses 10 =
      [("A", (2 : ℚ)/3), ("B", 1/3)] := by decide
  rw [hdp, hg]
  unfold portfolioSharpeR
  exact (psBlt_iff_toReal_lt _ _).mp (by decide)

/-- The spec's suggested hand-computable three-instrument set (Sharpe
ratios 5, 3, 2, all std 1): the greedy clamp and the DP fallback coincide
at the uniform 1/3 weights. -/
def smThree : List (String × StockMetrics) :=
  [("A", ⟨25277/5000, 1, 0, 0⟩), ("B", ⟨15277/5000, 1, 0, 0⟩),
   ("C", ⟨10277/5000, 1, 0, 0⟩)]

/-- C1 amended: the universal dominance fails (see the counterexample),
but on the spec's suggested three-instrument synthetic test the DP
Knapsack allocation's portfolio Sharpe ratio is ≥ the Greedy allocation's
(both produce the same uniform weights there). -/
theorem dp_vs_greedy_on_three_stocks :
    portfolioSharpeR smThree (greedy_portfolio_allocation smThree 10) ≤
      portfolioSharpeR smThree (dp_knapsack_portfolio_allocation smThree 10) := by
  have hwin := windowEmpty_of_short (scoreStocks smThree)
    (dkeys (selectTop smThree 10)) (by decide)
  have hdp : dp_knapsack_portfolio_allocation smThree 10 =
      [("A", (1 : ℚ)/3), ("B", 1/3), ("C", 1/3)] := by
    rw [dp_alloc_of_windowEmpty smThree 10 hwin]
    decide
  have hg : greedy_portfolio_allocation smThree 10 =
      [("A", (1 : ℚ)/3), ("B", 1/3), ("C", 1/3)] := by decide
  rw [hdp, hg]

/-! ## Equal-weight allocator (`src/equal_weight.py`) -/

/-- The filtered ticker selection of `equal_weight_allocation`:
caller-supplied tickers (or all metrics keys) filtered to those present in
`stocks_metrics`. -/
def equalWeightSelection (sm : List (String × StockMetrics))
    (selected_tickers : Option (List String)) : List String :=
  (selected_tickers.getD (dkeys sm)).filter (fun t => (dlookup t sm).isSome)

/-- `equal_weight_allocation` from `src/equal_weight.py`: weight `1/N`
for each selected ticker, returning `(allocations, results)`; the empty
selection returns the empty map and the all-zero summary. -/
def equal_weight_allocation (sm : List (String × StockMetrics))
    (selected_tickers : Option (List String)) : WMap × SummaryQ :=
  if equalWeightSelection sm selected_tickers = [] then ([], ⟨0, 0, 0⟩)
  else
    ((equalWeightSelection sm selected_tickers).map
      (fun t => (t, 1 / ((equalWeightSelection sm selected_tickers).length : ℚ))),
     ⟨((equalWeightSelection sm selected_tickers).map
         (fun t => (1 / ((equalWeightSelection sm selected_tickers).length : ℚ)) *
           ((dlookup t sm).map (·.mean_annual_return)).getD 0)).sum,
      ((equalWeightSelection sm selected_tickers).map
         (fun t => (1 / ((equalWeightSelection sm selected_tickers).length : ℚ)) ^ 2 *
           (((dlookup t sm).map (·.std_annual_return)).getD 0) ^ 2)).sum,
      (equalWeightSelection sm selected_tickers).length⟩)

/-! ## Claim C3: allocator weight-map invariants -/

/-- A price table: missing entries are `None` (`stock_prices.get` returns
`None` for absent tickers as well). -/
abbrev PriceTable := List (String × Option ℚ)

/-- `stock_prices.get(ticker)`. -/
def priceOf (prices : PriceTable) (t : String) : Option ℚ :=
  (dlookup t prices).getD none

/-- Floor-stage share count for one target:
`int(target_amount/price) if price and price > 0 else 0`. -/
def floorSharesOf (prices : PriceTable) (budget : ℚ) (t : String) (w : ℚ) : ℤ :=
  match priceOf prices t with
  | none => 0
  | some pr => if 0 < pr then pyInt (w * budget / pr) else 0

/-- Floor-stage dollars spent for one target (`num_shares * price`). -/
def floorSpentOf (prices : PriceTable) (budget : ℚ) (t : String) (w : ℚ) : ℚ :=
  match priceOf prices t with
  | none => 0
  | some pr => if 0 < pr then (pyInt (w * budget / pr) : ℚ) * pr else 0

/-- Mutable state of `allocate_whole_shares`: the `shares` and
`actual_spent` dicts and `cash_remaining`. -/
structure AllocState where
  shares : List (String × ℤ)
  spent : List (String × ℚ)
  cash : ℚ
deriving DecidableEq

/-- The initial whole-share allocation (`shares`, `actual_spent`,
`cash_remaining = budget - total_spent`). -/
def floorStage (targets : WMap) (prices : PriceTable) (budget : ℚ) : AllocState :=
  ⟨targets.map (fun p => (p.1, floorSharesOf prices budget p.1 p.2)),
   targets.map (fun p => (p.1, floorSpentOf prices budget p.1 p.2)),
   budget - sumVals (targets.map (fun p => (p.1, floorSpentOf prices budget p.1 p.2)))⟩

/-- The affordable list of the cash sweep (`greedy_whole.py` /
`dp_knapsack.py`): tickers of the price table that are targeted, have a
truthy price, and cost at most the remaining cash, as
`(ticker, price, target_weight)` in price-table order. -/
def affordableStocks (targets : WMap) (prices : PriceTable) (cash : ℚ) :
    List (String × ℚ × ℚ) :=
  prices.filterMap (fun q =>
    match q.2 with
    | none => none
    | some pr =>
      match dlookup q.1 targets with
      | none => none
      | some wt => if pr ≠ 0 ∧ pr ≤ cash then some (q.1, pr, wt) else none)

/-- One iteration of the `greedy_whole.py` sweep: stop when the cash guard
fails or nothing is affordable, otherwise buy one share of the
highest-target-weight affordable stock
(`actual_spent[ticker] = shares[ticker] * price`). -/
def sweepStepGW (targets : WMap) (prices : PriceTable) (st : AllocState) :
    Option AllocState :=
  if 0 < st.cash then
    match sortByKeyDesc (fun x => x.2.2) (affordableStocks targets prices st.cash) with
    | [] => none
    | (t, pr, _) :: _ =>
      some ⟨dictSet t ((dlookup t st.shares).getD 0 + 1) st.shares,
            dictSet t ((((dlookup t st.shares).getD 0 + 1 : ℤ)) * pr) st.spent,
            st.cash - pr⟩
  else none

/-- One iteration of the `dp_knapsack.py` sweep: identical choice, but
`actual_spent[ticker] = actual_spent.get(ticker, 0) + price`. -/
def sweepStepDP (targets : WMap) (prices : PriceTable) (st : AllocState) :
    Option AllocState :=
  if 0 < st.cash then
    match sortByKeyDesc (fun x => x.2.2) (affordableStocks targets prices st.cash) with
    | [] => none
    | (t, pr, _) :: _ =>
      some ⟨dictSet t ((dlookup t st.shares).getD 0 + 1) st.shares,
            dictSet t ((dlookup t st.spent).getD 0 + pr) st.spent,
            st.cash - pr⟩
  else none

/-- One candidate inspection of the `equal_whole.py` sweep scan: skip
missing, untargeted, falsy or unaffordable prices, otherwise keep the
candidate iff its `|test_allocation - target|` error strictly improves the
best error so far (`float('inf')` initially, i.e. `none`). -/
def ewScanStep (targets : WMap) (shares : List (String × ℤ))
    (spent : List (String × ℚ)) (cash : ℚ)
    (acc : Option (String × ℚ × ℚ)) (q : String × Option ℚ) :
    Option (String × ℚ × ℚ) :=
  match q.2 with
  | none => acc
  | some pr =>
    match dlookup q.1 targets with
    | none => acc
    | some tw =>
      if pr ≠ 0 ∧ pr ≤ cash then
        match acc with
        | none => some (q.1, pr,
            |(((dlookup q.1 shares).getD 0 + 1 : ℤ) : ℚ) * pr / (sumVals spent + pr) - tw|)
        | some (bt, bp, be) =>
          if |(((dlookup q.1 shares).getD 0 + 1 : ℤ) : ℚ) * pr / (sumVals spent + pr) - tw| < be
          then some (q.1, pr,
            |(((dlookup q.1 shares).getD 0 + 1 : ℤ) : ℚ) * pr / (sumVals spent + pr) - tw|)
          else some (bt, bp, be)
      else acc

/-- The best-candidate scan of the `equal_whole.py` sweep: the first
minimizer of the allocation error among affordable targeted tickers, in
price-table order, as `(ticker, price, best_error)`. -/
def ewBestCandidate (targets : WMap) (prices : PriceTable)
    (shares : List (String × ℤ)) (spent : List (String × ℚ)) (cash : ℚ) :
    Option (String × ℚ × ℚ) :=
  prices.foldl (ewScanStep targets shares spent cash) none

/-- One iteration of the `equal_whole.py` sweep: buy one share of the
closest-to-target affordable stock
(`actual_spent[best] = shares[best] * price`). -/
def sweepStepEW (targets : WMap) (prices : PriceTable) (st : AllocState) :
    Option AllocState :=
  if 0 < st.cash then
    match ewBestCandidate targets prices st.shares st.spent st.cash with
    | none => none
    | some (t, pr, _) =>
      some ⟨dictSet t ((dlookup t st.shares).getD 0 + 1) st.shares,
            dictSet t ((((dlookup t st.shares).getD 0 + 1 : ℤ)) * pr) st.spent,
            st.cash - pr⟩
  else none

/-- Iterate a sweep step until it stops or the fuel runs out. -/
def sweepIter (step : AllocState → Option AllocState) : ℕ → AllocState → AllocState
  | 0, st => st
  | n + 1, st =>
    match step st with
    | none => st
    | some st' => sweepIter step n st'

/-- A positive lower bound for all listed prices (when they are all
positive): the minimum of the listed prices and 1. -/
def listedPriceLB (prices : PriceTable) : ℚ :=
  (prices.filterMap (·.2)).foldr min 1

/-- Enough sweep iterations for any positive-price table: each purchase
costs at least `listedPriceLB`. -/
def sweepFuel (prices : PriceTable) (cash : ℚ) : ℕ :=
  (pyInt (cash / listedPriceLB prices)).toNat + 1

/-- The record returned by `allocate_whole_shares` (the `stock_prices` and
`sweep_count` entries of the Python dict are omitted: the former is the
input, the latter is display-only). -/
structure ShareAllocationResult where
  shares : List (String × ℤ)
  actual_allocations : List (String × ℚ)
  actual_spent : List (String × ℚ)
  total_spent : ℚ
  cash_remaining : ℚ
  budget : ℚ
deriving DecidableEq

/-- The final block of `allocate_whole_shares`: recompute `total_spent`,
derive `actual_allocations`, and drop zero-share / zero-allocation
entries. -/
def allocResult (budget : ℚ) (st : AllocState) : ShareAllocationResult :=
  ⟨st.shares.filter (fun p => decide (0 < p.2)),
   (st.spent.map (fun p =>
      (p.1, if 0 < sumVals st.spent then p.2 / sumVals st.spent else 0))).filter
     (fun p => decide (0 < p.2)),
   st.spent,
   sumVals st.spent,
   st.cash,
   budget⟩

/-- `allocate_whole_shares` from `greedy_whole.py`. -/
def allocate_whole_shares_greedy (targets : WMap) (prices : PriceTable)
    (budget : ℚ) : ShareAllocationResult :=
  allocResult budget
    (sweepIter (sweepStepGW targets prices)
      (sweepFuel prices (floorStage targets prices budget).cash)
      (floorStage targets prices budget))

/-- `allocate_whole_shares` from `dp_knapsack.py`. -/
def allocate_whole_shares_dp (targets : WMap) (prices : PriceTable)
    (budget : ℚ) : ShareAllocationResult :=
  allocResult budget
    (sweepIter (sweepStepDP targets prices)
      (sweepFuel prices (floorStage targets prices budget).cash)
      (floorStage targets prices budget))

/-- `allocate_whole_shares` from `equal_whole.py`. -/
def allocate_whole_shares_ew (targets : WMap) (prices : PriceTable)
    (budget : ℚ) : ShareAllocationResult :=
  allocResult budget
    (sweepIter (sweepStepEW targets prices)
      (sweepFuel prices (floorStage targets prices budget).cash)
      (floorStage targets prices budget))

/-! ## Dict update and truncation lemmas -/

theorem dlookup_dictSet_self {κ α : Type} [DecidableEq κ] (k : κ) (v : α)
    (l : List (κ × α)) : dlookup k (dictSet k v l) = some v := by
  induction l with
  | nil => simp [dictSet, dlookup]
  | cons p t ih =>
    obtain ⟨k', v'⟩ := p
    by_cases hk : k' = k
    · simp [dictSet, dlookup, hk]
    · simp [dictSet, dlookup, hk, ih]

theorem dlookup_dictSet_ne {κ α : Type} [DecidableEq κ] {k k' : κ} (v : α)
    (l : List (κ × α)) (h : k' ≠ k) :
    dlookup k' (dictSet k v l) = dlookup k' l := by
  induction l with
  | nil => simp [dictSet, dlookup, Ne.symm h]
  | cons p t ih =>
    obtain ⟨k0, v0⟩ := p
    rw [dictSet]
    split
    · next hk =>
      subst hk
      simp only [dlookup, if_neg (Ne.symm h)]
    · next hk =>
      by_cases hk' : k0 = k'
      · subst hk'
        simp [dlookup]
      · simp only [dlookup, if_neg hk']
        exact ih

theorem sumVals_dictSet {κ : Type} [DecidableEq κ] (k : κ) (v : ℚ)
    (l : List (κ × ℚ)) :
    sumVals (dictSet k v l) = sumVals l - (dlookup k l).getD 0 + v := by
  induction l with
  | nil => simp [dictSet, dlookup, sumVals]
  | cons p t ih =>
    obtain ⟨k', v'⟩ := p
    by_cases hk : k' = k
    · simp only [dictSet, if_pos hk, dlookup, sumVals, List.map_cons, List.sum_cons]
      simp only [Option.getD_some]
      ring
    · simp only [dictSet, if_neg hk, dlookup, sumVals, List.map_cons, List.sum_cons]
      simp only [sumVals] at ih
      rw [ih]
      ring

theorem mem_dlookup {κ α : Type} [DecidableEq κ] {k : κ} {v : α}
    {l : List (κ × α)} (hnd : (dkeys l).Nodup) (h : (k, v) ∈ l) :
    dlookup k l = some v := by
  induction l with
  | nil => cases h
  | cons p t ih =>
    obtain ⟨k', v'⟩ := p
    rcases List.mem_cons.mp h with h | h
    · cases h
      simp [dlookup]
    · have hk : k' ≠ k := by
        intro hk
        subst hk
        exact (List.nodup_cons.mp hnd).1 (by
          simp only [dkeys, List.mem_map]
          exact ⟨(k', v), h, rfl⟩)
      simp only [dlookup, if_neg hk]
      exact ih (List.nodup_cons.mp hnd).2 h

theorem dlookup_map_keyed {α β : Type} (f : String → α → β) (t : String)
    (l : List (String × α)) :
    dlookup t (l.map (fun p => (p.1, f p.1 p.2))) = (dlookup t l).map (f t) := by
  induction l with
  | nil => simp [dlookup]
  | cons p r ih =>
    obtain ⟨k, v⟩ := p
    by_cases hk : k = t
    · subst hk
      simp [dlookup]
    · simp [dlookup, hk, ih]

theorem pyInt_eq_floor {q : ℚ} (h : 0 ≤ q) : pyInt q = ⌊q⌋ := by
  unfold pyInt
  rw [Rat.floor_def]
  exact Int.tdiv_eq_ediv (Rat.num_nonneg.mpr h) (by positivity)

theorem pyInt_nonneg {q : ℚ} (h : 0 ≤ q) : 0 ≤ pyInt q := by
  rw [pyInt_eq_floor h]
  exact Int.floor_nonneg.mpr h

theorem pyInt_le {q : ℚ} (h : 0 ≤ q) : (pyInt q : ℚ) ≤ q := by
  rw [pyInt_eq_floor h]
  exact_mod_cast Int.floor_le q

theorem pyInt_mono {a b : ℚ} (ha : 0 ≤ a) (hab : a ≤ b) : pyInt a ≤ pyInt b := by
  rw [pyInt_eq_floor ha, pyInt_eq_floor (le_trans ha hab)]
  exact Int.floor_le_floor hab

/-! ## Claim C2: quantizer conservation invariants -/

/-- The `actual_spent` dict always records `shares * price` for every
priced ticker (the invariant linking the two `actual_spent` update styles). -/
def SpentConsistent (prices : PriceTable) (st : AllocState) : Prop :=
  ∀ t pr, priceOf prices t = some pr →
    (dlookup t st.spent).getD 0 = (((dlookup t st.shares).getD 0 : ℤ) : ℚ) * pr

/-- The sweep-loop invariant: exact conservation, non-negative cash and
spent/shares consistency. -/
def SweepInv (prices : PriceTable) (budget : ℚ) (st : AllocState) : Prop :=
  sumVals st.spent + st.cash = budget ∧ 0 ≤ st.cash ∧ SpentConsistent prices st

theorem sumVals_nonneg {κ : Type} (l : List (κ × ℚ)) (h : ∀ p ∈ l, 0 ≤ p.2) :
    0 ≤ sumVals l := by
  induction l with
  | nil => simp [sumVals]
  | cons p t ih =>
    simp only [sumVals, List.map_cons, List.sum_cons]
    have := h p (List.mem_cons_self p t)
    have := ih (fun q hq => h q (List.mem_cons_of_mem p hq))
    simp only [sumVals] at this
    linarith

theorem sumVals_map_mul {κ : Type} (l : List (κ × ℚ)) (b : ℚ) :
    sumVals (l.map (fun p => (p.1, p.2 * b))) = sumVals l * b := by
  induction l with
  | nil => simp [sumVals]
  | cons p t ih =>
    simp only [sumVals, List.map_cons, List.sum_cons] at ih ⊢
    rw [ih]
    ring

theorem floorSpentOf_nonneg (prices : PriceTable) (budget : ℚ) (t : String)
    (w : ℚ) (hw : 0 ≤ w) (hb : 0 ≤ budget) : 0 ≤ floorSpentOf prices budget t w := by
  unfold floorSpentOf
  rcases hp : priceOf prices t with _ | pr
  · exact le_refl 0
  · show (0 : ℚ) ≤ if 0 < pr then (pyInt (w * budget / pr) : ℚ) * pr else 0
    by_cases hpr : 0 < pr
    · rw [if_pos hpr]
      have h1 : (0 : ℚ) ≤ w * budget / pr := by positivity
      have h2 : (0 : ℤ) ≤ pyInt (w * budget / pr) := pyInt_nonneg h1
      have h3 : (0 : ℚ) ≤ (pyInt (w * budget / pr) : ℚ) := by exact_mod_cast h2
      positivity
    · rw [if_neg hpr]

theorem floorSpentOf_le (prices : PriceTable) (budget : ℚ) (t : String)
    (w : ℚ) (hw : 0 ≤ w) (hb : 0 ≤ budget) :
    floorSpentOf prices budget t w ≤ w * budget := by
  unfold floorSpentOf
  rcases hp : priceOf prices t with _ | pr
  · positivity
  · show (if 0 < pr then (pyInt (w * budget / pr) : ℚ) * pr else 0) ≤ w * budget
    by_cases hpr : 0 < pr
    · rw [if_pos hpr]
      have h1 : (0 : ℚ) ≤ w * budget / pr := by positivity
      have h2 : (pyInt (w * budget / pr) : ℚ) ≤ w * budget / pr := pyInt_le h1
      calc (pyInt (w * budget / pr) : ℚ) * pr ≤ (w * budget / pr) * pr :=
            mul_le_mul_of_nonneg_right h2 (le_of_lt hpr)
        _ = w * budget := by field_simp
    · rw [if_neg hpr]
      positivity

/-- The floor stage satisfies the sweep invariant. -/
theorem floorStage_inv (targets : WMap) (prices : PriceTable) (budget : ℚ)
    (hw : ∀ p ∈ targets, 0 ≤ p.2) (hsum : sumVals targets ≤ 1) (hb : 0 ≤ budget) :
    SweepInv prices budget (floorStage targets prices budget) := by
  have hspent_le : sumVals (targets.map (fun p => (p.1, floorSpentOf prices budget p.1 p.2)))
      ≤ budget := by
    have h1 : sumVals (targets.map (fun p => (p.1, floorSpentOf prices budget p.1 p.2)))
        ≤ sumVals (targets.map (fun p => (p.1, p.2 * budget))) := by
      unfold sumVals
      rw [List.map_map, List.map_map]
      refine List.sum_le_sum ?_
      intro p hp
      exact floorSpentOf_le prices budget p.1 p.2 (hw p hp) hb
    have h2 : sumVals (targets.map (fun p => (p.1, p.2 * budget))) ≤ budget := by
      rw [sumVals_map_mul]
      nlinarith [sumVals_nonneg targets hw]
    linarith
  refine ⟨by unfold floorStage; ring, ?_, ?_⟩
  · show 0 ≤ budget - sumVals (targets.map (fun p => (p.1, floorSpentOf prices budget p.1 p.2)))
    linarith
  · intro t pr hpr
    show (dlookup t (targets.map (fun p => (p.1, floorSpentOf prices budget p.1 p.2)))).getD 0 =
      (((dlookup t (targets.map (fun p => (p.1, floorSharesOf prices budget p.1 p.2)))).getD 0 : ℤ) : ℚ) * pr
    rw [dlookup_map_keyed (floorSpentOf prices budget) t targets,
        dlookup_map_keyed (floorSharesOf prices budget) t targets]
    rcases dlookup t targets with _ | w
    · show (0 : ℚ) = ((0 : ℤ) : ℚ) * pr
      norm_num
    · show floorSpentOf prices budget t w = ((floorSharesOf prices budget t w : ℤ) : ℚ) * pr
      unfold floorSpentOf floorSharesOf
      rw [hpr]
      show (if 0 < pr then (pyInt (w * budget / pr) : ℚ) * pr else 0) =
        (((if 0 < pr then pyInt (w * budget / pr) else 0) : ℤ) : ℚ) * pr
      by_cases h0 : 0 < pr
      · rw [if_pos h0, if_pos h0]
      · rw [if_neg h0, if_neg h0]
        simp

/-- Members of the affordable list come from the price table, with truthy
price at most the remaining cash. -/
theorem affordableStocks_mem {targets : WMap} {prices : PriceTable} {cash : ℚ}
    {x : String × ℚ × ℚ} (h : x ∈ affordableStocks targets prices cash) :
    (x.1, some x.2.1) ∈ prices ∧ x.2.1 ≠ 0 ∧ x.2.1 ≤ cash := by
  obtain ⟨q, hq, heq⟩ := List.mem_filterMap.mp h
  obtain ⟨qt, qp⟩ := q
  rcases qp with _ | pr
  · cases heq
  · rcases hql : dlookup qt targets with _ | wt
    · simp only [hql] at heq
      exact Option.noConfusion heq
    · simp only [hql] at heq
      by_cases hc : pr ≠ 0 ∧ pr ≤ cash
      · rw [if_pos hc] at heq
        injection heq with he
        subst he
        exact ⟨hq, hc.1, hc.2⟩
      · rw [if_neg hc] at heq
        cases heq

/-- The head of the sorted affordable list is an affordable stock. -/
theorem sorted_head_mem {α : Type} {key : α → ℚ} {l : List α} {x : α} {rest : List α}
    (h : sortByKeyDesc key l = x :: rest) : x ∈ l := by
  have : x ∈ sortByKeyDesc key l := by
    rw [h]
    exact List.mem_cons_self x rest
  exact (sortByKeyDesc_perm key l).mem_iff.mp this

/-- Buying one share of a priced ticker `t` at `pr ≤ cash` preserves the
sweep invariant (the `shares[t]*price` spent-update style). -/
theorem buyStep_inv {prices : PriceTable} {budget : ℚ} {st : AllocState}
    {t : String} {pr : ℚ} (hpo : priceOf prices t = some pr)
    (hple : pr ≤ st.cash) (hinv : SweepInv prices budget st) :
    SweepInv prices budget
      ⟨dictSet t ((dlookup t st.shares).getD 0 + 1) st.shares,
       dictSet t (((dlookup t st.shares).getD 0 + 1 : ℤ) * pr) st.spent,
       st.cash - pr⟩ := by
  obtain ⟨hbal, hcash, hcons⟩ := hinv
  have hct := hcons t pr hpo
  refine ⟨?_, ?_, ?_⟩
  · show sumVals (dictSet t (((dlookup t st.shares).getD 0 + 1 : ℤ) * pr) st.spent) +
      (st.cash - pr) = budget
    rw [sumVals_dictSet, hct]
    push_cast
    ring_nf
    ring_nf at hbal
    linarith
  · show 0 ≤ st.cash - pr
    linarith
  · intro u pu hpu
    show (dlookup u (dictSet t (((dlookup t st.shares).getD 0 + 1 : ℤ) * pr)
        st.spent)).getD 0 =
      (((dlookup u (dictSet t ((dlookup t st.shares).getD 0 + 1) st.shares)).getD 0 : ℤ) : ℚ)
        * pu
    by_cases hu : u = t
    · have hpr : pu = pr := by
        rw [hu] at hpu
        rw [hpu] at hpo
        exact (Option.some.injEq _ _).mp hpo
      rw [hu, hpr, dlookup_dictSet_self, dlookup_dictSet_self]
      simp
    · rw [dlookup_dictSet_ne _ _ hu, dlookup_dictSet_ne _ _ hu]
      exact hcons u pu hpu

/-- The two `actual_spent` update styles coincide under the invariant. -/
theorem spent_update_eq {prices : PriceTable} {st : AllocState} {t : String}
    {pr : ℚ} (hpo : priceOf prices t = some pr)
    (hcons : SpentConsistent prices st) :
    dictSet t ((dlookup t st.spent).getD 0 + pr) st.spent =
      dictSet t (((dlookup t st.shares).getD 0 + 1 : ℤ) * pr) st.spent := by
  have hct := hcons t pr hpo
  congr 1
  rw [hct]
  push_cast
  ring

/-- The `greedy_whole.py` sweep step preserves the invariant. -/
theorem sweepStepGW_inv {targets : WMap} {prices : PriceTable} {budget : ℚ}
    {st st' : AllocState} (hpn : (dkeys prices).Nodup)
    (h : sweepStepGW targets prices st = some st') (hinv : SweepInv prices budget st) :
    SweepInv prices budget st' := by
  unfold sweepStepGW at h
  by_cases hc : 0 < st.cash
  · rw [if_pos hc] at h
    rcases hs : sortByKeyDesc (fun x => x.2.2) (affordableStocks targets prices st.cash)
      with _ | ⟨⟨t, pr, wt⟩, rest⟩
    · rw [hs] at h
      cases h
    · rw [hs] at h
      injection h with h'
      obtain ⟨hpr_mem, hpr0, hprle⟩ := affordableStocks_mem (sorted_head_mem hs)
      have hpo : priceOf prices t = some pr := by
        unfold priceOf
        rw [mem_dlookup hpn hpr_mem]
        rfl
      rw [← h']
      exact buyStep_inv hpo hprle hinv
  · rw [if_neg hc] at h
    cases h

/-- The `dp_knapsack.py` sweep step preserves the invariant. -/
theorem sweepStepDP_inv {targets : WMap} {prices : PriceTable} {budget : ℚ}
    {st st' : AllocState} (hpn : (dkeys prices).Nodup)
    (h : sweepStepDP targets prices st = some st') (hinv : SweepInv prices budget st) :
    SweepInv prices budget st' := by
  unfold sweepStepDP at h
  by_cases hc : 0 < st.cash
  · rw [if_pos hc] at h
    rcases hs : sortByKeyDesc (fun x => x.2.2) (affordableStocks targets prices st.cash)
      with _ | ⟨⟨t, pr, wt⟩, rest⟩
    · rw [hs] at h
      cases h
    · rw [hs] at h
      injection h with h'
      obtain ⟨hpr_mem, hpr0, hprle⟩ := affordableStocks_mem (sorted_head_mem hs)
      have hpo : priceOf prices t = some pr := by
        unfold priceOf
        rw [mem_dlookup hpn hpr_mem]
        rfl
      rw [← h']
      rw [show (⟨dictSet t ((dlookup t st.shares).getD 0 + 1) st.shares,
            dictSet t ((dlookup t st.spent).getD 0 + pr) st.spent,
            st.cash - pr⟩ : AllocState) =
          ⟨dictSet t ((dlookup t st.shares).getD 0 + 1) st.shares,
            dictSet t (((dlookup t st.shares).getD 0 + 1 : ℤ) * pr) st.spent,
            st.cash - pr⟩ from by rw [spent_update_eq hpo hinv.2.2]]
      exact buyStep_inv hpo hprle hinv
  · rw [if_neg hc] at h
    cases h

/-- Iterating a sweep step preserves any step-preserved property. -/
theorem sweepIter_pres (step : AllocState → Option AllocState) (P : AllocState → Prop)
    (hstep : ∀ st st', step st = some st' → P st → P st') :
    ∀ (n : ℕ) (st : AllocState), P st → P (sweepIter step n st) := by
  intro n
  induction n with
  | zero => intro st h; exact h
  | succ k ih =>
    intro st h
    rcases hs : step st with _ | st'
    · simpa [sweepIter, hs] using h
    · simpa [sweepIter, hs] using ih st' (hstep st st' hs h)

/-- C2: for weight maps satisfying the `WeightMap` invariant (non-negative
weights summing to at most 1) and a non-negative budget, both cited copies
of `allocate_whole_shares` satisfy `total_spent + cash_remaining = budget`
exactly, `cash_remaining ≥ 0` and `total_spent ≤ budget`, both after the
initial floor allocation and after the cash sweep completes. -/
theorem allocate_whole_shares_conservation (targets : WMap) (prices : PriceTable)
    (budget : ℚ) (hpn : (dkeys prices).Nodup) (hw : ∀ p ∈ targets, 0 ≤ p.2)
    (hsum : sumVals targets ≤ 1) (hb : 0 ≤ budget) :
    (sumVals (floorStage targets prices budget).spent +
        (floorStage targets prices budget).cash = budget ∧
      0 ≤ (floorStage targets prices budget).cash ∧
      sumVals (floorStage targets prices budget).spent ≤ budget) ∧
    ((allocate_whole_shares_greedy targets prices budget).total_spent +
        (allocate_whole_shares_greedy targets prices budget).cash_remaining = budget ∧
      0 ≤ (allocate_whole_shares_greedy targets prices budget).cash_remaining ∧
      (allocate_whole_shares_greedy targets prices budget).total_spent ≤ budget) ∧
    ((allocate_whole_shares_dp targets prices budget).total_spent +
        (allocate_whole_shares_dp targets prices budget).cash_remaining = budget ∧
      0 ≤ (allocate_whole_shares_dp targets prices budget).cash_remaining ∧
      (allocate_whole_shares_dp targets prices budget).total_spent ≤ budget) := by
  have h0 := floorStage_inv targets prices budget hw hsum hb
  have hgw : SweepInv prices budget
      (sweepIter (sweepStepGW targets prices)
        (sweepFuel prices (floorStage targets prices budget).cash)
        (floorStage targets prices budget)) :=
    sweepIter_pres _ _ (fun st st' hs hp => sweepStepGW_inv hpn hs hp) _ _ h0
  have hdp : SweepInv prices budget
      (sweepIter (sweepStepDP targets prices)
        (sweepFuel prices (floorStage targets prices budget).cash)
        (floorStage targets prices budget)) :=
    sweepIter_pres _ _ (fun st st' hs hp => sweepStepDP_inv hpn hs hp) _ _ h0
  refine ⟨⟨h0.1, h0.2.1, by have := h0.1; have := h0.2.1; linarith⟩, ⟨?_, ?_, ?_⟩, ⟨?_, ?_, ?_⟩⟩
  · exact hgw.1
  · exact hgw.2.1
  · show sumVals (sweepIter (sweepStepGW targets prices)
        (sweepFuel prices (floorStage targets prices budget).cash)
        (floorStage targets prices budget)).spent ≤ budget
    have h1 := hgw.1
    have h2 := hgw.2.1
    linarith
  · exact hdp.1
  · exact hdp.2.1
  · show sumVals (sweepIter (sweepStepDP targets prices)
        (sweepFuel prices (floorStage targets prices budget).cash)
        (floorStage targets prices budget)).spent ≤ budget
    have h1 := hdp.1
    have h2 := hdp.2.1
    linarith

/-- Witness for C2: a concrete two-stock allocation at budget 10. -/
theorem allocate_whole_shares_conservation_witness :
    (allocate_whole_shares_greedy [("A", (1 : ℚ)/2), ("B", 1/2)]
        [("A", some 3), ("B", some 4)] 10).total_spent +
      (allocate_whole_shares_greedy [("A", (1 : ℚ)/2), ("B", 1/2)]
        [("A", some 3), ("B", some 4)] 10).cash_remaining = 10 ∧
    (allocate_whole_shares_dp [("A", (1 : ℚ)/2), ("B", 1/2)]
        [("A", some 3), ("B", some 4)] 10).total_spent ≤ 10 := by
  have h := allocate_whole_shares_conservation [("A", (1 : ℚ)/2), ("B", 1/2)]
    [("A", some 3), ("B", some 4)] 10 (by decide) (by decide) (by decide) (by decide)
  exact ⟨h.2.1.1, h.2.2.2.2⟩

/-! ## Claim C10: the cash sweep terminates for positive prices -/

theorem floorSpentOf_budget_mono (prices : PriceTable) (t : String) (w : ℚ)
    (hw : 0 ≤ w) {b1 b2 : ℚ} (h0 : 0 ≤ b1) (h12 : b1 ≤ b2) :
    floorSpentOf prices b1 t w ≤ floorSpentOf prices b2 t w := by
  unfold floorSpentOf
  rcases hp : priceOf prices t with _ | pr
  · exact le_refl 0
  · show (if 0 < pr then (pyInt (w * b1 / pr) : ℚ) * pr else 0) ≤
      if 0 < pr then (pyInt (w * b2 / pr) : ℚ) * pr else 0
    by_cases hpr : 0 < pr
    · rw [if_pos hpr, if_pos hpr]
      have h1 : (0 : ℚ) ≤ w * b1 / pr := by positivity
      have hnum : w * b1 ≤ w * b2 := mul_le_mul_of_nonneg_left h12 hw
      have h2 : w * b1 / pr ≤ w * b2 / pr := by
        gcongr
      have h3 : pyInt (w * b1 / pr) ≤ pyInt (w * b2 / pr) := pyInt_mono h1 h2
      have h4 : ((pyInt (w * b1 / pr) : ℤ) : ℚ) ≤ ((pyInt (w * b2 / pr) : ℤ) : ℚ) := by
        exact_mod_cast h3
      exact mul_le_mul_of_nonneg_right h4 (le_of_lt hpr)
    · rw [if_neg hpr, if_neg hpr]

/-- C9 counterexample: with weights 0.51/0.49 and prices 10/7, raising the
budget from 27 to 29 lowers `total_spent` from 27 to 24 (at 27 the sweep
buys a high-priority share with the leftover 10; at 29 the floor stage
takes two shares of the cheap stock and leaves an unusable 5). -/
theorem quantizer_monotonicity_counterexample :
    (27 : ℚ) ≤ 29 ∧
    (allocate_whole_shares_greedy [("A", (51 : ℚ)/100), ("B", 49/100)]
        [("A", some 10), ("B", some 7)] 29).total_spent <
      (allocate_whole_shares_greedy [("A", (51 : ℚ)/100), ("B", 49/100)]
        [("A", some 10), ("B", some 7)] 27).total_spent := by
  constructor
  · norm_num
  · decide

/-- C9 amended: `total_spent` is monotone in the budget for the initial
floor allocation; the cash sweep breaks monotonicity of the final
`total_spent` (see the counterexample). -/
theorem floor_total_spent_mono (targets : WMap) (prices : PriceTable)
    (hw : ∀ p ∈ targets, 0 ≤ p.2) {b1 b2 : ℚ} (h0 : 0 ≤ b1) (h12 : b1 ≤ b2) :
    sumVals (floorStage targets prices b1).spent ≤
      sumVals (floorStage targets prices b2).spent := by
  show sumVals (targets.map (fun p => (p.1, floorSpentOf prices b1 p.1 p.2))) ≤
    sumVals (targets.map (fun p => (p.1, floorSpentOf prices b2 p.1 p.2)))
  unfold sumVals
  rw [List.map_map, List.map_map]
  refine List.sum_le_sum ?_
  intro p hp
  exact floorSpentOf_budget_mono prices p.1 p.2 (hw p hp) h0 h12

/-- Witness for C9's amended monotonicity at budgets 27 and 29. -/
theorem floor_total_spent_mono_witness :
    sumVals (floorStage [("A", (51 : ℚ)/100), ("B", 49/100)]
        [("A", some 10), ("B", some 7)] 27).spent ≤
      sumVals (floorStage [("A", (51 : ℚ)/100), ("B", 49/100)]
        [("A", some 10), ("B", some 7)] 29).spent :=
  floor_total_spent_mono [("A", (51 : ℚ)/100), ("B", 49/100)]
    [("A", some 10), ("B", some 7)] (by decide) (by norm_num) (by norm_num)

/-! ## Claim C8: the empty instrument universe -/

/-- Python float division: raises `ZeroDivisionError` on a zero
denominator, otherwise returns the quotient. -/
def pyDiv (a b : ℚ) : Except String ℚ :=
  if b = 0 then Except.error "ZeroDivisionError" else Except.ok (a / b)

/-- `equal_weight_allocation` from `src/equal_whole.py` (the network price
fetch `get_current_stock_prices` is replaced by the `prices` parameter;
display and plotting are dropped; the returned triple carries the target
allocations, the whole-share allocation result, and the metrics of the
`results` dict).  The source computes
`equal_weight = 1.0 / len(selected_stocks)` with no emptiness guard, so an
empty selection raises `ZeroDivisionError`. -/
def ew_whole_equal_weight_allocation (sm : List (String × StockMetrics))
    (prices : PriceTable) (amount : ℚ) (num_stocks : ℕ) :
    Except String (WMap × ShareAllocationResult × SummaryQ) :=
  match pyDiv 1 ((selectTop sm num_stocks).length : ℚ) with
  | Except.error e => Except.error e
  | Except.ok equal_weight =>
    Except.ok
      ((selectTop sm num_stocks).map (fun p => (p.1, equal_weight)),
       allocate_whole_shares_ew
         ((selectTop sm num_stocks).map (fun p => (p.1, equal_weight))) prices amount,
       ⟨((selectTop sm num_stocks).map
           (fun p => equal_weight * meanOf (scoreStocks sm) p.1)).sum,
        ((selectTop sm num_stocks).map
           (fun p => equal_weight ^ 2 * stdOf (scoreStocks sm) p.1 ^ 2)).sum,
        (selectTop sm num_stocks).length⟩)

/-- C8: on the empty instrument universe, `src/equal_weight.py` and
`src/algorithms/dp_knapsack.py` return an empty weight map together with
the all-zero summary (whose denoted std and Sharpe ratio are zero as
well), but the `src/equal_whole.py` allocator raises `ZeroDivisionError`
at `equal_weight = 1.0 / len(selected_stocks)` instead of returning. -/
theorem empty_universe_behavior :
    equal_weight_allocation [] none = ([], ⟨0, 0, 0⟩) ∧
    (∀ K : ℕ, algo_dp_knapsack_portfolio_allocation [] K = ([], ⟨0, 0, 0⟩)) ∧
    (SummaryQ.stdR ⟨0, 0, 0⟩ = 0 ∧ SummaryQ.sharpeR ⟨0, 0, 0⟩ = 0) ∧
    (∀ (prices : PriceTable) (amount : ℚ) (K : ℕ),
      ew_whole_equal_weight_allocation [] prices amount K =
        Except.error "ZeroDivisionError") := by
  have hsel : ∀ K : ℕ, selectTop [] K = [] := by
    intro K
    simp [selectTop, sortBySharpeDesc, scoreStocks, sortByKeyDesc]
  refine ⟨?_, ?_, ⟨?_, ?_⟩, ?_⟩
  · rfl
  · intro K
    unfold algo_dp_knapsack_portfolio_allocation
    rw [show dkeys (selectTop [] K) = [] by rw [hsel K]; rfl]
    rfl
  · show Real.sqrt (((0 : ℚ) : ℝ)) = 0
    simp
  · unfold SummaryQ.sharpeR
    rw [if_neg]
    unfold SummaryQ.stdR
    simp
  · intro prices amount K
    unfold ew_whole_equal_weight_allocation
    rw [hsel K]
    rfl

/-! ## Claim C4: instruments with fewer than 2 return observations -/

/-- `pandas.Series.mean()`: `NaN` (here `none`) on an empty series,
otherwise the arithmetic mean. -/
def pandasMean? (xs : List ℚ) : Option ℚ :=
  if xs.length = 0 then none else some (xs.sum / (xs.length : ℚ))

/-- `pandas.Series.std()` (sample deviation, `ddof=1`): `NaN` (here
`none`) on fewer than 2 observations; on the defined branch we carry the
sample variance, whose real square root is the returned std — it is `NaN`
exactly when this is `none`. -/
def pandasStd? (xs : List ℚ) : Option ℚ :=
  if xs.length < 2 then none
  else some (((xs.map (fun x => (x - xs.sum / (xs.length : ℚ)) ^ 2)).sum) /
    ((xs.length : ℚ) - 1))

/-- `(1 + simulated_returns).prod(axis=1) - 1` for one simulation path. -/
def cumulativeReturn (path : List ℚ) : ℚ :=
  (path.map (fun r => 1 + r)).prod - 1

/-- `numpy` mean: `NaN` on an empty array. -/
def npMean? (xs : List ℚ) : Option ℚ :=
  if xs.length = 0 then none else some (xs.sum / (xs.length : ℚ))

/-- `numpy.ndarray.std()` (population deviation, `ddof=0`): again carried
as the variance on the defined branch, `none` for the empty array's
`NaN`. -/
def npVar? (xs : List ℚ) : Option ℚ :=
  if xs.length = 0 then none
  else some (((xs.map (fun x => (x - xs.sum / (xs.length : ℚ)) ^ 2)).sum) /
    (xs.length : ℚ))

/-- Ascending sort of a list of rationals (descending sort by negated
key). -/
def sortAsc (xs : List ℚ) : List ℚ :=
  sortByKeyDesc (fun x : ℚ => -x) xs

/-- `numpy.percentile(xs, p)` with the default linear interpolation:
index `h = p/100 · (n-1)`, value `s[⌊h⌋] + (h - ⌊h⌋) · (s[⌊h⌋+1] - s[⌊h⌋])`
on the ascending sort `s`; `np.median` is the 50th percentile. -/
def npPercentile (p : ℚ) (xs : List ℚ) : ℚ :=
  if xs.length = 0 then 0
  else
    ((sortAsc xs).getD (pyInt (p / 100 * ((xs.length : ℚ) - 1))).toNat 0) +
      (p / 100 * ((xs.length : ℚ) - 1) -
        ((pyInt (p / 100 * ((xs.length : ℚ) - 1))).toNat : ℚ)) *
      (((sortAsc xs).getD ((pyInt (p / 100 * ((xs.length : ℚ) - 1))).toNat + 1)
          ((sortAsc xs).getD (pyInt (p / 100 * ((xs.length : ℚ) - 1))).toNat 0)) -
        ((sortAsc xs).getD (pyInt (p / 100 * ((xs.length : ℚ) - 1))).toNat 0))

/-- The per-instrument statistics dict built by `monte_carlo_simulation`
(the `simulated_annual_returns` array itself is omitted).  `NaN` values
are `none`. -/
structure MCStatsQ where
  mean_annual_return : Option ℚ
  median_annual_return : Option ℚ
  std_annual_return : Option ℚ
  percentile_5 : Option ℚ
  percentile_95 : Option ℚ
deriving DecidableEq

/-- One loop body of `monte_carlo_simulation` for a single stock:
`stock_mean = returns[stock].mean()` and `stock_std = returns[stock].std()`
are pandas statistics; if either is `NaN` every entry of the
`np.random.normal(stock_mean, stock_std, ...)` draw is `NaN` (the
`scale < 0` check does not fire on `NaN`) and every derived statistic is
`NaN`.  On the defined branch the drawn matrix is the oracle parameter
`sims` (one row per simulation; `num_simulations = 10000 > 0`, so the
empty-`sims` guards are never exercised there). -/
def mcStockStats (hist : List ℚ) (sims : List (List ℚ)) : MCStatsQ :=
  match pandasMean? hist, pandasStd? hist with
  | some _, some _ =>
    ⟨npMean? (sims.map cumulativeReturn),
     if sims.length = 0 then none
       else some (npPercentile 50 (sims.map cumulativeReturn)),
     npVar? (sims.map cumulativeReturn),
     if sims.length = 0 then none
       else some (npPercentile 5 (sims.map cumulativeReturn)),
     if sims.length = 0 then none
       else some (npPercentile 95 (sims.map cumulativeReturn))⟩
  | _, _ => ⟨none, none, none, none, none⟩

/-- `monte_carlo_simulation` from `src/monte_carlo_method.py`: it loops
over the instruments and fills the results dict; it contains no
validation and no raise, so the embedding always returns `Except.ok`. -/
def monte_carlo_simulation (histories : List (String × List ℚ))
    (sims : String → List (List ℚ)) : Except String (List (String × MCStatsQ)) :=
  Except.ok (histories.map (fun p => (p.1, mcStockStats p.2 (sims p.1))))

theorem mcStockStats_short (hist : List ℚ) (sims : List (List ℚ))
    (hshort : hist.length < 2) :
    mcStockStats hist sims = ⟨none, none, none, none, none⟩ := by
  unfold mcStockStats
  have hstd : pandasStd? hist = none := by
    unfold pandasStd?
    rw [if_pos hshort]
  rw [hstd]
  rcases pandasMean? hist with _ | m
  · rfl
  · rfl

/-- C4: `monte_carlo_simulation` performs no input validation: on any
table containing an instrument whose return history has fewer than 2
observations it still returns successfully (never raises), and that
instrument's statistics are all `NaN`, contradicting the specified hard
input-validation error. -/
theorem short_history_nan_propagation (histories : List (String × List ℚ))
    (sims : String → List (List ℚ)) (t : String) (hist : List ℚ)
    (hmem : (t, hist) ∈ histories) (hshort : hist.length < 2) :
    ∃ rs, monte_carlo_simulation histories sims = Except.ok rs ∧
      (t, (⟨none, none, none, none, none⟩ : MCStatsQ)) ∈ rs := by
  refine ⟨_, rfl, ?_⟩
  refine List.mem_map.mpr ⟨(t, hist), hmem, ?_⟩
  rw [mcStockStats_short hist (sims t) hshort]

/-- Witness for C4 at a one-observation history. -/
theorem short_history_nan_propagation_witness :
    (("A", [(1 : ℚ)]) ∈ [("A", [(1 : ℚ)])] ∧ [(1 : ℚ)].length < 2) ∧
    ∃ rs, monte_carlo_simulation [("A", [(1 : ℚ)])] (fun _ => []) = Except.ok rs ∧
      ("A", (⟨none, none, none, none, none⟩ : MCStatsQ)) ∈ rs :=
  ⟨⟨by decide, by decide⟩,
   short_history_nan_propagation [("A", [(1 : ℚ)])] (fun _ => []) "A" [(1 : ℚ)]
     (by decide) (by decide)⟩

end Portfolio
